import Mathlib

/-!
A shallow embedding of `src/gps.py` (City routing with breadth-first search).

Python `City` objects are referenced by identity (the `neighbors` dict of a
city is keyed by `City` *objects*).  During a `Map` build every city object
lives in the map's `cities` list and is never moved, so object identity is
modelled here as the index of the city in that list: `City.neighbors` is the
insertion-ordered association list of `(city index, distance, interstate)`
entries, mirroring the Python dict keyed by city object.
-/

namespace GPS

/-- `City` of `gps.py`: a name and the neighbor table
(`{neighbor_city: (distance, interstate)}`), with the neighbor object
reference rendered as the neighbor's index in the map's city list. -/
structure City where
  name : String
  neighbors : List (Nat × Int × String)
deriving DecidableEq, Repr

/-- Resolution of a dangling index (never produced by a build). -/
def defaultCity : City := ⟨"", []⟩

/-- `Map` of `gps.py`: the list `self.cities`, in append order.
(The Python object also stores the raw `relationships` argument; no claim
refers to it, so it is omitted.) -/
structure Map where
  cities : List City
deriving DecidableEq, Repr

/-- Dereference a city index in a map (Python attribute access through the
object reference). -/
def cityAt (g : Map) (i : Nat) : City := g.cities.getD i defaultCity

/-- `Map.get_city`: scan `self.cities` in order, return the first city whose
name equals the query, else `None`. -/
def get_city (g : Map) (n : String) : Option City :=
  g.cities.find? (fun c => c.name == n)

/-- `neighbor in self.neighbors`: Python dict membership, keyed by object
identity, i.e. by city index. -/
def hasKey (c : City) (i : Nat) : Bool := c.neighbors.any (fun t => t.1 == i)

/-- `City.add_neighbor(self, neighbor, distance, interstate)` acting on the
store of cities: `self` and `neighbor` are city indices.  Each of the two
`if ... not in ...` inserts appends the entry at the end of the dict. -/
def add_neighbor (cs : List City) (selfIdx nIdx : Nat) (d : Int) (inter : String) : List City :=
  let c1 := cs.getD selfIdx defaultCity
  let cs1 :=
    if hasKey c1 nIdx then cs
    else cs.set selfIdx { c1 with neighbors := c1.neighbors ++ [(nIdx, d, inter)] }
  let c2 := cs1.getD nIdx defaultCity
  if hasKey c2 selfIdx then cs1
  else cs1.set nIdx { c2 with neighbors := c2.neighbors ++ [(selfIdx, d, inter)] }

/-- The `get_city` / `if not city` / `City(...)` + `append` pattern of
`Map.__init__`, for a key or neighbor name: returns the updated store and the
index of the (found or created) city. -/
def getOrCreate (cs : List City) (n : String) : List City × Nat :=
  match cs.findIdx? (fun c => c.name == n) with
  | some i => (cs, i)
  | none => (cs ++ [⟨n, []⟩], cs.length)

/-- One iteration of the outer loop of `Map.__init__`: process one
`(city_name, triples)` entry of the relationship listing. -/
def buildStep (cs : List City) (entry : String × List (String × Int × String)) : List City :=
  let p := getOrCreate cs entry.1
  entry.2.foldl (fun acc t =>
    let q := getOrCreate acc t.1
    add_neighbor q.1 p.2 q.2 t.2.1 t.2.2) p.1

/-- `Map.__init__(relationships)`: the relationship listing is consumed in
iteration order (Python dict iteration = insertion order, keys unique). -/
def buildMap (relationships : List (String × List (String × Int × String))) : Map :=
  ⟨relationships.foldl buildStep []⟩

/-- `neighbor.name`: resolve a neighbor-table entry to the neighbor's name. -/
def resolveName (g : Map) (t : Nat × Int × String) : String := (cityAt g t.1).name

/-- The inner `for neighbor in city.neighbors` loop of `bfs`: either the goal
is met at some neighbor (return `Sum.inl` with the finished path, without
touching the remaining neighbors) or every neighbor produces an enqueued
extended path (`Sum.inr`, in neighbor order). -/
def expand (g : Map) (goal : String) (p : List String) :
    List (Nat × Int × String) → (List String) ⊕ (List (List String))
  | [] => Sum.inr []
  | t :: ns =>
    let nm := resolveName g t
    if nm = goal then Sum.inl (p ++ [nm])
    else
      match expand g goal p ns with
      | Sum.inl r => Sum.inl r
      | Sum.inr qs => Sum.inr ((p ++ [nm]) :: qs)

/-- The `while queue` loop of `bfs`, made structurally recursive on a fuel
argument.  `none` = fuel exhausted (never happens from `bfs`, see
`bfsAux_total`); `some none` = the Python `return None` (no path);
`some (some p)` = `return new_path`. -/
def bfsAux (g : Map) (goal : String) :
    Nat → List (List String) → List String → Option (Option (List String))
  | 0, _, _ => none
  | _ + 1, [], _ => some none
  | fuel + 1, p :: rest, explored =>
    let lst := p.getLastD ""
    if lst ∈ explored then
      bfsAux g goal fuel rest explored
    else
      match get_city g lst with
      | none => bfsAux g goal fuel rest (explored ++ [lst])
      | some city =>
        if city.neighbors.isEmpty then
          bfsAux g goal fuel rest (explored ++ [lst])
        else
          match expand g goal p city.neighbors with
          | Sum.inl found => some (some found)
          | Sum.inr newPaths => bfsAux g goal fuel (rest ++ newPaths) (explored ++ [lst])

/-- Every name a queue-path can end with: `start` (the seed) or some
resolved neighbor name. -/
def allNbrNames (g : Map) : List String :=
  (g.cities.map (fun c => c.neighbors.map (resolveName g))).flatten

/-- Total size of all neighbor tables: an upper bound on how many paths one
loop iteration can enqueue. -/
def degSum (g : Map) : Nat := (g.cities.map (fun c => c.neighbors.length)).sum

/-- A fuel big enough for the loop to run to completion (`bfsAux_total`). -/
def bfsFuel (g : Map) (start : String) : Nat :=
  (start :: allNbrNames g).length * (degSum g + 1) + 2

/-- `bfs(graph, start, goal)`: seed the queue with `[[start]]`, empty
explored list. -/
def bfs (g : Map) (start goal : String) : Option (List String) :=
  (bfsAux g goal (bfsFuel g start) [[start]] []).getD none

/-- `u`'s city (via `get_city`, as both `bfs` and the rendering loop of
`main` access it) lists a neighbor named `v`. -/
def adjacentB (g : Map) (u v : String) : Bool :=
  match get_city g u with
  | some c => c.neighbors.any (fun t => resolveName g t == v)
  | none => false

/-- The edge relation the search walks along. -/
def adjacent (g : Map) (u v : String) : Prop := adjacentB g u v = true

instance (g : Map) (u v : String) : Decidable (adjacent g u v) :=
  inferInstanceAs (Decidable (adjacentB g u v = true))

/-- `l` is a walk through `g` from `s` to `t`: nonempty, starts at `s`, ends
at `t`, and consecutive entries are connected by a recorded edge. -/
def isWalkFrom (g : Map) (s t : String) (l : List String) : Prop :=
  l ≠ [] ∧ l.head? = some s ∧ l.getLast? = some t ∧ List.Chain' (adjacent g) l

/-- Executable adjacency chain check, for evaluating `isWalkFrom` on concrete
lists. -/
def chainAdjB (g : Map) : List String → Bool
  | [] => true
  | [_] => true
  | a :: b :: r => adjacentB g a b && chainAdjB g (b :: r)

theorem chain'_iff_chainAdjB (g : Map) :
    ∀ l : List String, List.Chain' (adjacent g) l ↔ chainAdjB g l = true := by
  intro l
  induction l with
  | nil => simp [chainAdjB]
  | cons a l ih =>
    cases l with
    | nil => simp [chainAdjB]
    | cons b r =>
      rw [List.chain'_cons, chainAdjB, Bool.and_eq_true, ← ih]
      unfold adjacent
      exact Iff.rfl

instance (g : Map) (s t : String) (l : List String) : Decidable (isWalkFrom g s t l) :=
  decidable_of_iff (l ≠ [] ∧ l.head? = some s ∧ l.getLast? = some t ∧ chainAdjB g l = true)
    (by unfold isWalkFrom; rw [chain'_iff_chainAdjB])

/-- The `(distance, interstate)` values recorded on edges from `a` to a
neighbor named `b` (what `main`'s rendering loop reads). -/
def edgeVals (g : Map) (a b : String) : List (Int × String) :=
  match get_city g a with
  | some c => (c.neighbors.filter (fun t => resolveName g t == b)).map (fun t => t.2)
  | none => []

/-- The recorded attribute of the edge from `a` to `b`, if any. -/
def edgeAttr (g : Map) (a b : String) : Option (Int × String) := (edgeVals g a b).head?

/-- Every neighbor entry points back: if city `i` lists `(j, d, l)` then city
`j` lists `(i, d, l)` (and in particular `j` is a live index). -/
def SymmStore (cs : List City) : Prop :=
  ∀ i, i < cs.length → ∀ t ∈ (cs.getD i defaultCity).neighbors,
    (i, t.2) ∈ (cs.getD t.1 defaultCity).neighbors

/-- City names are pairwise distinct. -/
def NamesNodup (cs : List City) : Prop := (cs.map City.name).Nodup

/-- No neighbor table lists the same city twice. -/
def KeysNodup (cs : List City) : Prop :=
  ∀ c ∈ cs, (c.neighbors.map (fun t => t.1)).Nodup

/-- Every neighbor entry references a live index. -/
def ValidKeys (cs : List City) : Prop :=
  ∀ c ∈ cs, ∀ t ∈ c.neighbors, t.1 < cs.length

/-- The invariant `Map.__init__` maintains on the city store. -/
def StoreInv (cs : List City) : Prop :=
  SymmStore cs ∧ NamesNodup cs ∧ KeysNodup cs ∧ ValidKeys cs

instance (cs : List City) : Decidable (SymmStore cs) :=
  inferInstanceAs (Decidable (∀ i, i < cs.length → ∀ t ∈ (cs.getD i defaultCity).neighbors,
    (i, t.2) ∈ (cs.getD t.1 defaultCity).neighbors))

instance (cs : List City) : Decidable (NamesNodup cs) :=
  inferInstanceAs (Decidable ((cs.map City.name).Nodup))

instance (cs : List City) : Decidable (KeysNodup cs) :=
  inferInstanceAs (Decidable (∀ c ∈ cs, (c.neighbors.map (fun t : Nat × Int × String => t.1)).Nodup))

instance (cs : List City) : Decidable (ValidKeys cs) :=
  inferInstanceAs (Decidable (∀ c ∈ cs, ∀ t ∈ c.neighbors, t.1 < cs.length))

instance (cs : List City) : Decidable (StoreInv cs) :=
  inferInstanceAs (Decidable (SymmStore cs ∧ NamesNodup cs ∧ KeysNodup cs ∧ ValidKeys cs))

/-! ### List-store helper lemmas -/

theorem getD_append_left {cs ds : List City} {i : Nat} (h : i < cs.length) (d : City) :
    (cs ++ ds).getD i d = cs.getD i d := by
  simp [List.getD_eq_getElem?_getD, List.getElem?_append, h]

theorem getD_append_snoc_len (cs : List City) (c d : City) :
    (cs ++ [c]).getD cs.length d = c := by
  simp [List.getD_eq_getElem?_getD, List.getElem?_append]

theorem getD_set_self {cs : List City} {i : Nat} (h : i < cs.length) (a d : City) :
    (cs.set i a).getD i d = a := by
  simp [List.getD_eq_getElem?_getD, List.getElem?_set_self, h]

theorem getD_set_ne {cs : List City} {i j : Nat} (h : i ≠ j) (a d : City) :
    (cs.set i a).getD j d = cs.getD j d := by
  simp [List.getD_eq_getElem?_getD, List.getElem?_set_ne h]

theorem getD_mem {cs : List City} {i : Nat} (h : i < cs.length) (d : City) :
    cs.getD i d ∈ cs := by
  rw [List.getD_eq_getElem?_getD, List.getElem?_eq_getElem h]
  exact List.getElem_mem h

theorem getD_of_ge {cs : List City} {i : Nat} (h : cs.length ≤ i) (d : City) :
    cs.getD i d = d := by
  rw [List.getD_eq_getElem?_getD, List.getElem?_eq_none h]
  rfl

/-! ### `get_city` (Lookup) lemmas -/

theorem get_city_some {g : Map} {n : String} {c : City} (h : get_city g n = some c) :
    c ∈ g.cities ∧ c.name = n := by
  refine ⟨List.mem_of_find?_eq_some h, ?_⟩
  have := List.find?_some h
  simpa using this

theorem get_city_eq_none {g : Map} {n : String} :
    get_city g n = none ↔ ∀ c ∈ g.cities, c.name ≠ n := by
  unfold get_city
  rw [List.find?_eq_none]
  simp

theorem get_city_isSome {g : Map} {n : String} (h : ∃ c ∈ g.cities, c.name = n) :
    ∃ c, get_city g n = some c := by
  have : (g.cities.find? (fun c => c.name == n)).isSome := by
    rw [List.find?_isSome]
    obtain ⟨c, hc, hn⟩ := h
    exact ⟨c, hc, by simp [hn]⟩
  exact Option.isSome_iff_exists.mp this

/-! ### `bfs` on an absent start -/

theorem bfsAux_nil (g : Map) (t : String) (fuel : Nat) (e : List String) :
    bfsAux g t (fuel + 1) [] e = some none := rfl

theorem bfsAux_start_absent (g : Map) (s t : String) (fuel : Nat)
    (h : get_city g s = none) :
    bfsAux g t (fuel + 2) [[s]] [] = some none := by
  show bfsAux g t ((fuel + 1) + 1) [[s]] [] = some none
  simp only [bfsAux, List.getLastD]
  simp [h]

/-! ### One-step equations for the `bfs` loop -/

theorem bfsAux_step_skip {g : Map} {t : String} {n : Nat} {p : List String}
    {rest : List (List String)} {e : List String} (h : p.getLastD "" ∈ e) :
    bfsAux g t (n + 1) (p :: rest) e = bfsAux g t n rest e := by
  simp only [bfsAux]
  rw [if_pos h]

theorem bfsAux_step_none {g : Map} {t : String} {n : Nat} {p : List String}
    {rest : List (List String)} {e : List String} (h1 : p.getLastD "" ∉ e)
    (h2 : get_city g (p.getLastD "") = none) :
    bfsAux g t (n + 1) (p :: rest) e = bfsAux g t n rest (e ++ [p.getLastD ""]) := by
  simp only [bfsAux]
  rw [if_neg h1]
  simp only [h2]

theorem bfsAux_step_empty {g : Map} {t : String} {n : Nat} {p : List String}
    {rest : List (List String)} {e : List String} {city : City} (h1 : p.getLastD "" ∉ e)
    (h2 : get_city g (p.getLastD "") = some city) (h3 : city.neighbors.isEmpty = true) :
    bfsAux g t (n + 1) (p :: rest) e = bfsAux g t n rest (e ++ [p.getLastD ""]) := by
  simp only [bfsAux]
  rw [if_neg h1]
  simp only [h2]
  rw [if_pos h3]

theorem bfsAux_step_inl {g : Map} {t : String} {n : Nat} {p : List String}
    {rest : List (List String)} {e : List String} {city : City} {found : List String}
    (h1 : p.getLastD "" ∉ e) (h2 : get_city g (p.getLastD "") = some city)
    (h3 : ¬ city.neighbors.isEmpty = true)
    (h4 : expand g t p city.neighbors = Sum.inl found) :
    bfsAux g t (n + 1) (p :: rest) e = some (some found) := by
  simp only [bfsAux]
  rw [if_neg h1]
  simp only [h2]
  rw [if_neg h3]
  simp only [h4]

theorem bfsAux_step_inr {g : Map} {t : String} {n : Nat} {p : List String}
    {rest : List (List String)} {e : List String} {city : City} {qs : List (List String)}
    (h1 : p.getLastD "" ∉ e) (h2 : get_city g (p.getLastD "") = some city)
    (h3 : ¬ city.neighbors.isEmpty = true)
    (h4 : expand g t p city.neighbors = Sum.inr qs) :
    bfsAux g t (n + 1) (p :: rest) e = bfsAux g t n (rest ++ qs) (e ++ [p.getLastD ""]) := by
  simp only [bfsAux]
  rw [if_neg h1]
  simp only [h2]
  rw [if_neg h3]
  simp only [h4]

/-! ### Name / index bookkeeping -/

theorem getD_eq_getElem {cs : List City} {i : Nat} (h : i < cs.length) (d : City) :
    cs.getD i d = cs[i] := by
  rw [List.getD_eq_getElem?_getD, List.getElem?_eq_getElem h]
  rfl

theorem namesNodup_inj {cs : List City} (hn : NamesNodup cs) {a b : Nat}
    (ha : a < cs.length) (hb : b < cs.length)
    (h : (cs.getD a defaultCity).name = (cs.getD b defaultCity).name) : a = b := by
  have ha' : a < (cs.map City.name).length := by simpa using ha
  have hb' : b < (cs.map City.name).length := by simpa using hb
  have hmap : (cs.map City.name)[a] = (cs.map City.name)[b] := by
    simp only [List.getElem_map]
    rw [← getD_eq_getElem ha defaultCity, ← getD_eq_getElem hb defaultCity]
    exact h
  exact (List.Nodup.getElem_inj_iff hn).mp hmap

theorem member_name_unique {cs : List City} (hn : NamesNodup cs) {c₁ c₂ : City}
    (h1 : c₁ ∈ cs) (h2 : c₂ ∈ cs) (he : c₁.name = c₂.name) : c₁ = c₂ := by
  obtain ⟨i, hi, rfl⟩ := List.mem_iff_getElem.mp h1
  obtain ⟨j, hj, rfl⟩ := List.mem_iff_getElem.mp h2
  have : i = j := by
    apply namesNodup_inj hn hi hj
    rw [getD_eq_getElem hi, getD_eq_getElem hj]
    exact he
  subst this
  rfl

theorem hasKey_iff {c : City} {i : Nat} :
    hasKey c i = true ↔ ∃ v, (i, v) ∈ c.neighbors := by
  unfold hasKey
  rw [List.any_eq_true]
  constructor
  · rintro ⟨t, ht, hq⟩
    have h1 : t.1 = i := by simpa using hq
    exact ⟨t.2, by rw [← h1]; exact ht⟩
  · rintro ⟨v, hv⟩
    exact ⟨(i, v), hv, by simp⟩

theorem hasKey_false_iff {c : City} {i : Nat} :
    hasKey c i = false ↔ i ∉ c.neighbors.map (fun t => t.1) := by
  rw [← Bool.not_eq_true, hasKey_iff]
  simp only [List.mem_map]
  constructor
  · rintro h ⟨t, ht, rfl⟩
    exact h ⟨t.2, ht⟩
  · rintro h ⟨v, hv⟩
    exact h ⟨(i, v), hv, rfl⟩

/-! ### `add_neighbor` case analysis -/

/-- The effect of one `self.neighbors[...] = ...` dict insert on the store. -/
def pushEntry (cs : List City) (i j : Nat) (d : Int) (l : String) : List City :=
  let c := cs.getD i defaultCity
  cs.set i { c with neighbors := c.neighbors ++ [(j, d, l)] }

theorem length_pushEntry (cs : List City) (i j : Nat) (d : Int) (l : String) :
    (pushEntry cs i j d l).length = cs.length := by
  simp [pushEntry]

theorem getD_pushEntry_self {cs : List City} {i : Nat} (hi : i < cs.length)
    (j : Nat) (d : Int) (l : String) :
    (pushEntry cs i j d l).getD i defaultCity =
      { cs.getD i defaultCity with
        neighbors := (cs.getD i defaultCity).neighbors ++ [(j, d, l)] } := by
  simp only [pushEntry]
  exact getD_set_self hi _ _

theorem getD_pushEntry_ne {cs : List City} {i k : Nat} (h : i ≠ k)
    (j : Nat) (d : Int) (l : String) :
    (pushEntry cs i j d l).getD k defaultCity = cs.getD k defaultCity := by
  simp only [pushEntry]
  exact getD_set_ne h _ _

theorem names_pushEntry (cs : List City) (i j : Nat) (d : Int) (l : String) :
    (pushEntry cs i j d l).map City.name = cs.map City.name := by
  rcases Nat.lt_or_ge i cs.length with hi | hi
  · apply List.ext_getElem
    · simp [pushEntry]
    · intro k hk1 hk2
      simp only [pushEntry, List.getElem_map, List.getElem_set]
      split
      · next h => subst h; rw [getD_eq_getElem hi]
      · rfl
  · simp only [pushEntry]
    rw [List.set_eq_of_length_le (by simpa using hi)]

theorem nbrs_subset_pushEntry (cs : List City) (i j : Nat) (d : Int) (l : String) (k : Nat) :
    ((cs.getD k defaultCity).neighbors : List (Nat × Int × String)) ⊆
      ((pushEntry cs i j d l).getD k defaultCity).neighbors := by
  rcases Nat.lt_or_ge i cs.length with hi | hi
  · by_cases hik : i = k
    · subst hik
      rw [getD_pushEntry_self hi]
      exact fun t ht => List.mem_append_left _ ht
    · rw [getD_pushEntry_ne hik]
      exact fun t ht => ht
  · simp only [pushEntry]
    rw [List.set_eq_of_length_le (by simpa using hi)]
    exact fun t ht => ht

theorem symm_hasKey {cs : List City} (hs : SymmStore cs) {i j : Nat} (hi : i < cs.length)
    (h : hasKey (cs.getD i defaultCity) j = true) :
    hasKey (cs.getD j defaultCity) i = true := by
  obtain ⟨v, hv⟩ := hasKey_iff.mp h
  exact hasKey_iff.mpr ⟨v, hs i hi (j, v) hv⟩

theorem add_neighbor_noop {cs : List City} {i j : Nat} {d : Int} {l : String}
    (hs : SymmStore cs) (hi : i < cs.length)
    (h : hasKey (cs.getD i defaultCity) j = true) :
    add_neighbor cs i j d l = cs := by
  unfold add_neighbor
  simp only [h, if_true]
  simp only [symm_hasKey hs hi h, if_true]

theorem add_neighbor_self_eq {cs : List City} {i : Nat} {d : Int} {l : String}
    (hi : i < cs.length) (h : hasKey (cs.getD i defaultCity) i = false) :
    add_neighbor cs i i d l = pushEntry cs i i d l := by
  unfold add_neighbor
  simp only [h, Bool.false_eq_true, if_false]
  have hkey : hasKey
      ((cs.set i { cs.getD i defaultCity with
        neighbors := (cs.getD i defaultCity).neighbors ++ [(i, d, l)] }).getD i defaultCity)
      i = true := by
    rw [getD_set_self hi]
    exact hasKey_iff.mpr ⟨(d, l), by simp⟩
  simp only [hkey, if_true]
  rfl

theorem add_neighbor_both_eq {cs : List City} {i j : Nat} {d : Int} {l : String}
    (hij : i ≠ j) (h1 : hasKey (cs.getD i defaultCity) j = false)
    (h2 : hasKey (cs.getD j defaultCity) i = false) :
    add_neighbor cs i j d l = pushEntry (pushEntry cs i j d l) j i d l := by
  unfold add_neighbor
  simp only [h1, Bool.false_eq_true, if_false]
  have hD : (pushEntry cs i j d l).getD j defaultCity = cs.getD j defaultCity :=
    getD_pushEntry_ne hij _ _ _
  show (if hasKey ((pushEntry cs i j d l).getD j defaultCity) i then _ else _) = _
  rw [hD]
  simp only [h2, Bool.false_eq_true, if_false]
  simp only [pushEntry, hD]

theorem mem_pushEntry {cs : List City} {i j : Nat} {d : Int} {l : String} {c : City}
    (h : c ∈ pushEntry cs i j d l) :
    c = { cs.getD i defaultCity with
          neighbors := (cs.getD i defaultCity).neighbors ++ [(j, d, l)] } ∨ c ∈ cs := by
  simp only [pushEntry] at h
  rcases List.mem_or_eq_of_mem_set h with h | h
  · right; exact h
  · left; exact h

theorem pushEntry_self_storeInv {cs : List City} {i : Nat} {d : Int} {l : String}
    (h : StoreInv cs) (hi : i < cs.length)
    (hK : hasKey (cs.getD i defaultCity) i = false) :
    StoreInv (pushEntry cs i i d l) := by
  obtain ⟨hs, hn, hk, hv⟩ := h
  have hlen : (pushEntry cs i i d l).length = cs.length := length_pushEntry _ _ _ _ _
  refine ⟨?_, ?_, ?_, ?_⟩
  · intro a ha t ht
    rw [hlen] at ha
    by_cases hai : a = i
    · subst hai
      rw [getD_pushEntry_self hi] at ht
      rcases List.mem_append.mp ht with ht | ht
      · exact nbrs_subset_pushEntry cs a a d l t.1 (hs a ha t ht)
      · have : t = (a, d, l) := by simpa using ht
        subst this
        rw [getD_pushEntry_self hi]
        simp
    · rw [getD_pushEntry_ne (fun hh => hai hh.symm)] at ht
      exact nbrs_subset_pushEntry cs i i d l t.1 (hs a ha t ht)
  · unfold NamesNodup
    rw [names_pushEntry]
    exact hn
  · intro c hc
    rcases mem_pushEntry hc with rfl | hc
    · simp only [List.map_append]
      refine List.Nodup.append (hk _ (getD_mem hi _)) (by simp) ?_
      intro x hx hy
      have hxe : x = i := by simpa using hy
      subst hxe
      exact (hasKey_false_iff.mp hK) hx
    · exact hk c hc
  · intro c hc t ht
    rw [hlen]
    rcases mem_pushEntry hc with rfl | hc
    · rcases List.mem_append.mp ht with ht | ht
      · exact hv _ (getD_mem hi _) t ht
      · have : t = (i, d, l) := by simpa using ht
        subst this
        exact hi
    · exact hv c hc t ht

theorem pushEntry_both_storeInv {cs : List City} {i j : Nat} {d : Int} {l : String}
    (h : StoreInv cs) (hi : i < cs.length) (hj : j < cs.length) (hij : i ≠ j)
    (h1 : hasKey (cs.getD i defaultCity) j = false)
    (h2 : hasKey (cs.getD j defaultCity) i = false) :
    StoreInv (pushEntry (pushEntry cs i j d l) j i d l) := by
  obtain ⟨hs, hn, hk, hv⟩ := h
  set cs₂ := pushEntry (pushEntry cs i j d l) j i d l with hcs₂
  have hlen1 : (pushEntry cs i j d l).length = cs.length := length_pushEntry _ _ _ _ _
  have hlen : cs₂.length = cs.length := by
    rw [hcs₂, length_pushEntry, hlen1]
  have hgi : cs₂.getD i defaultCity =
      { cs.getD i defaultCity with
        neighbors := (cs.getD i defaultCity).neighbors ++ [(j, d, l)] } := by
    rw [hcs₂, getD_pushEntry_ne (fun hh => hij hh.symm), getD_pushEntry_self hi]
  have hgj : cs₂.getD j defaultCity =
      { cs.getD j defaultCity with
        neighbors := (cs.getD j defaultCity).neighbors ++ [(i, d, l)] } := by
    rw [hcs₂, getD_pushEntry_self (by rw [hlen1]; exact hj), getD_pushEntry_ne hij]
  have hgo : ∀ k, k ≠ i → k ≠ j → cs₂.getD k defaultCity = cs.getD k defaultCity := by
    intro k hki hkj
    rw [hcs₂, getD_pushEntry_ne (fun hh => hkj hh.symm), getD_pushEntry_ne (fun hh => hki hh.symm)]
  have hsub : ∀ k, ((cs.getD k defaultCity).neighbors : List (Nat × Int × String)) ⊆
      (cs₂.getD k defaultCity).neighbors := by
    intro k
    rw [hcs₂]
    exact (nbrs_subset_pushEntry cs i j d l k).trans
      (nbrs_subset_pushEntry (pushEntry cs i j d l) j i d l k)
  refine ⟨?_, ?_, ?_, ?_⟩
  · intro a ha t ht
    rw [hlen] at ha
    by_cases hai : a = i
    · subst hai
      rw [hgi] at ht
      rcases List.mem_append.mp ht with ht | ht
      · exact hsub t.1 (hs a ha t ht)
      · have : t = (j, d, l) := by simpa using ht
        subst this
        rw [hgj]
        simp
    · by_cases haj : a = j
      · subst haj
        rw [hgj] at ht
        rcases List.mem_append.mp ht with ht | ht
        · exact hsub t.1 (hs a ha t ht)
        · have : t = (i, d, l) := by simpa using ht
          subst this
          rw [hgi]
          simp
      · rw [hgo a hai haj] at ht
        exact hsub t.1 (hs a ha t ht)
  · unfold NamesNodup
    rw [hcs₂, names_pushEntry, names_pushEntry]
    exact hn
  · intro c hc
    rcases mem_pushEntry hc with rfl | hc
    · rw [getD_pushEntry_ne hij]
      simp only [List.map_append]
      refine List.Nodup.append (hk _ (getD_mem hj _)) (by simp) ?_
      intro x hx hy
      have hxe : x = i := by simpa using hy
      subst hxe
      exact (hasKey_false_iff.mp h2) hx
    · rcases mem_pushEntry hc with rfl | hc
      · simp only [List.map_append]
        refine List.Nodup.append (hk _ (getD_mem hi _)) (by simp) ?_
        intro x hx hy
        have hxe : x = j := by simpa using hy
        subst hxe
        exact (hasKey_false_iff.mp h1) hx
      · exact hk c hc
  · intro c hc t ht
    rw [hlen]
    rcases mem_pushEntry hc with rfl | hc
    · rw [getD_pushEntry_ne hij] at ht
      rcases List.mem_append.mp ht with ht | ht
      · exact hv _ (getD_mem hj _) t ht
      · have : t = (i, d, l) := by simpa using ht
        subst this
        exact hi
    · rcases mem_pushEntry hc with rfl | hc
      · rcases List.mem_append.mp ht with ht | ht
        · exact hv _ (getD_mem hi _) t ht
        · have : t = (j, d, l) := by simpa using ht
          subst this
          exact hj
      · exact hv c hc t ht

theorem add_neighbor_storeInv {cs : List City} {i j : Nat} {d : Int} {l : String}
    (h : StoreInv cs) (hi : i < cs.length) (hj : j < cs.length) :
    StoreInv (add_neighbor cs i j d l) ∧
    (add_neighbor cs i j d l).length = cs.length ∧
    (add_neighbor cs i j d l).map City.name = cs.map City.name := by
  by_cases hK : hasKey (cs.getD i defaultCity) j = true
  · rw [add_neighbor_noop h.1 hi hK]
    exact ⟨h, rfl, rfl⟩
  · have hK' : hasKey (cs.getD i defaultCity) j = false := by
      simpa using hK
    by_cases hij : i = j
    · subst hij
      rw [add_neighbor_self_eq hi hK']
      exact ⟨pushEntry_self_storeInv h hi hK', length_pushEntry _ _ _ _ _,
        names_pushEntry _ _ _ _ _⟩
    · have h2 : hasKey (cs.getD j defaultCity) i = false := by
        rcases Bool.eq_false_or_eq_true (hasKey (cs.getD j defaultCity) i) with h2 | h2
        · exact absurd (symm_hasKey h.1 hj h2) (by rw [hK']; simp)
        · exact h2
      rw [add_neighbor_both_eq hij hK' h2]
      refine ⟨pushEntry_both_storeInv h hi hj hij hK' h2, ?_, ?_⟩
      · rw [length_pushEntry, length_pushEntry]
      · rw [names_pushEntry, names_pushEntry]

/-! ### `getOrCreate` lemmas -/

theorem getOrCreate_cases (cs : List City) (n : String) :
    (getOrCreate cs n).1 = cs ∨
    ((getOrCreate cs n).1 = cs ++ [⟨n, []⟩] ∧ ∀ c ∈ cs, c.name ≠ n) := by
  cases h : cs.findIdx? (fun c => c.name == n) with
  | none =>
    right
    refine ⟨by simp [getOrCreate, h], ?_⟩
    intro c hc
    have := List.findIdx?_eq_none_iff.mp h c hc
    simpa using this
  | some i => left; simp [getOrCreate, h]

theorem getOrCreate_idx_lt (cs : List City) (n : String) :
    (getOrCreate cs n).2 < (getOrCreate cs n).1.length := by
  cases h : cs.findIdx? (fun c => c.name == n) with
  | none => simp [getOrCreate, h]
  | some i =>
    simp only [getOrCreate, h]
    exact (List.findIdx?_eq_some_iff_findIdx_eq.mp h).1

theorem getOrCreate_name (cs : List City) (n : String) :
    ((getOrCreate cs n).1.getD (getOrCreate cs n).2 defaultCity).name = n := by
  cases h : cs.findIdx? (fun c => c.name == n) with
  | none =>
    simp only [getOrCreate, h]
    rw [getD_append_snoc_len]
  | some i =>
    simp only [getOrCreate, h]
    obtain ⟨hlt, hfi⟩ := List.findIdx?_eq_some_iff_findIdx_eq.mp h
    subst hfi
    rw [getD_eq_getElem hlt]
    have := @List.findIdx_getElem _ (fun c => c.name == n) cs hlt
    simpa using this

theorem getOrCreate_length_le (cs : List City) (n : String) :
    cs.length ≤ (getOrCreate cs n).1.length := by
  rcases getOrCreate_cases cs n with he | ⟨he, _⟩ <;> simp [he]

theorem getOrCreate_names (cs : List City) (n : String) :
    ∃ ext, (getOrCreate cs n).1.map City.name = cs.map City.name ++ ext := by
  rcases getOrCreate_cases cs n with he | ⟨he, _⟩ <;> rw [he]
  · exact ⟨[], by simp⟩
  · exact ⟨[n], by simp⟩

theorem append_fresh_storeInv {cs : List City} {n : String} (h : StoreInv cs)
    (hfresh : ∀ c ∈ cs, c.name ≠ n) : StoreInv (cs ++ [⟨n, []⟩]) := by
  obtain ⟨hs, hn, hk, hv⟩ := h
  refine ⟨?_, ?_, ?_, ?_⟩
  · intro a ha t ht
    rcases Nat.lt_or_ge a cs.length with haL | haL
    · rw [getD_append_left haL] at ht
      have hval : t.1 < cs.length := hv _ (getD_mem haL _) t ht
      rw [getD_append_left hval]
      exact hs a haL t ht
    · rw [List.length_append, List.length_singleton] at ha
      have : a = cs.length := by omega
      subst this
      rw [getD_append_snoc_len] at ht
      simp at ht
  · unfold NamesNodup
    rw [List.map_append]
    refine List.Nodup.append hn (by simp) ?_
    intro x hx hy
    have hxn : x = n := by simpa using hy
    subst hxn
    obtain ⟨c, hc, hcn⟩ := List.mem_map.mp hx
    exact hfresh c hc hcn
  · intro c hc
    rcases List.mem_append.mp hc with hc | hc
    · exact hk c hc
    · have : c = ⟨n, []⟩ := by simpa using hc
      subst this
      simp
  · intro c hc t ht
    rcases List.mem_append.mp hc with hc | hc
    · have := hv c hc t ht
      rw [List.length_append]
      omega
    · have : c = ⟨n, []⟩ := by simpa using hc
      subst this
      simp at ht

theorem getOrCreate_storeInv {cs : List City} {n : String} (h : StoreInv cs) :
    StoreInv (getOrCreate cs n).1 := by
  rcases getOrCreate_cases cs n with he | ⟨he, hfresh⟩ <;> rw [he]
  · exact h
  · exact append_fresh_storeInv h hfresh

/-! ### Build invariant -/

/-- The function folded over the triples list inside `buildStep`, with the key
city's index fixed. -/
def innerStep (ci : Nat) (acc : List City) (t : String × Int × String) : List City :=
  let q := getOrCreate acc t.1
  add_neighbor q.1 ci q.2 t.2.1 t.2.2

theorem buildStep_eq (cs : List City) (e : String × List (String × Int × String)) :
    buildStep cs e = e.2.foldl (innerStep (getOrCreate cs e.1).2) (getOrCreate cs e.1).1 := rfl

theorem innerStep_facts {cs : List City} {ci : Nat} (t : String × Int × String)
    (h : StoreInv cs) (hci : ci < cs.length) :
    StoreInv (innerStep ci cs t) ∧ cs.length ≤ (innerStep ci cs t).length ∧
    (∃ ext, (innerStep ci cs t).map City.name = cs.map City.name ++ ext) ∧
    t.1 ∈ (innerStep ci cs t).map City.name := by
  have hq1 : StoreInv (getOrCreate cs t.1).1 := getOrCreate_storeInv h
  have hq2 : (getOrCreate cs t.1).2 < (getOrCreate cs t.1).1.length := getOrCreate_idx_lt cs t.1
  have hlen : cs.length ≤ (getOrCreate cs t.1).1.length := getOrCreate_length_le cs t.1
  have hci' : ci < (getOrCreate cs t.1).1.length := lt_of_lt_of_le hci hlen
  obtain ⟨hinv, hL, hN⟩ := add_neighbor_storeInv hq1 hci' hq2
  obtain ⟨ext, hext⟩ := getOrCreate_names cs t.1
  refine ⟨hinv, ?_, ⟨ext, ?_⟩, ?_⟩
  · unfold innerStep
    rw [hL]
    exact hlen
  · unfold innerStep
    rw [hN]
    exact hext
  · unfold innerStep
    rw [hN]
    have hmem : (getOrCreate cs t.1).1.getD (getOrCreate cs t.1).2 defaultCity
        ∈ (getOrCreate cs t.1).1 := getD_mem hq2 _
    have := List.mem_map_of_mem City.name hmem
    rw [getOrCreate_name] at this
    exact this

theorem innerFold_facts (ci : Nat) (ts : List (String × Int × String)) :
    ∀ (cs : List City), StoreInv cs → ci < cs.length →
    StoreInv (ts.foldl (innerStep ci) cs) ∧
    cs.length ≤ (ts.foldl (innerStep ci) cs).length ∧
    (∃ ext, (ts.foldl (innerStep ci) cs).map City.name = cs.map City.name ++ ext) ∧
    ∀ t ∈ ts, t.1 ∈ (ts.foldl (innerStep ci) cs).map City.name := by
  induction ts with
  | nil =>
    intro cs h _
    exact ⟨h, le_refl _, ⟨[], by simp⟩, by simp⟩
  | cons t ts ih =>
    intro cs h hci
    obtain ⟨h1, h2, ⟨ext1, h3⟩, h4⟩ := innerStep_facts t h hci
    obtain ⟨g1, g2, ⟨ext2, g3⟩, g4⟩ := ih (innerStep ci cs t) h1 (lt_of_lt_of_le hci h2)
    rw [List.foldl_cons]
    refine ⟨g1, le_trans h2 g2, ⟨ext1 ++ ext2, by rw [g3, h3, List.append_assoc]⟩, ?_⟩
    intro t' ht'
    rcases List.mem_cons.mp ht' with rfl | ht'
    · rw [g3]
      exact List.mem_append_left _ h4
    · exact g4 t' ht'

theorem buildStep_facts (cs : List City) (e : String × List (String × Int × String))
    (h : StoreInv cs) :
    StoreInv (buildStep cs e) ∧
    (∃ ext, (buildStep cs e).map City.name = cs.map City.name ++ ext) ∧
    ∀ t ∈ e.2, t.1 ∈ (buildStep cs e).map City.name := by
  rw [buildStep_eq]
  obtain ⟨f1, f2, ⟨ext1, f3⟩, f4⟩ :=
    innerFold_facts (getOrCreate cs e.1).2 e.2 (getOrCreate cs e.1).1
      (getOrCreate_storeInv h) (getOrCreate_idx_lt cs e.1)
  obtain ⟨ext0, h0⟩ := getOrCreate_names cs e.1
  exact ⟨f1, ⟨ext0 ++ ext1, by rw [f3, h0, List.append_assoc]⟩, f4⟩

theorem storeInv_nil : StoreInv ([] : List City) := by
  refine ⟨?_, ?_, ?_, ?_⟩ <;> simp [SymmStore, NamesNodup, KeysNodup, ValidKeys]

theorem buildFold_facts (rel : List (String × List (String × Int × String))) :
    ∀ (cs : List City), StoreInv cs →
    StoreInv (rel.foldl buildStep cs) ∧
    (∃ ext, (rel.foldl buildStep cs).map City.name = cs.map City.name ++ ext) ∧
    ∀ e ∈ rel, ∀ t ∈ e.2, t.1 ∈ (rel.foldl buildStep cs).map City.name := by
  induction rel with
  | nil =>
    intro cs h
    exact ⟨h, ⟨[], by simp⟩, by simp⟩
  | cons e rel ih =>
    intro cs h
    obtain ⟨h1, ⟨ext1, h3⟩, h4⟩ := buildStep_facts cs e h
    obtain ⟨g1, ⟨ext2, g3⟩, g4⟩ := ih (buildStep cs e) h1
    rw [List.foldl_cons]
    refine ⟨g1, ⟨ext1 ++ ext2, by rw [g3, h3, List.append_assoc]⟩, ?_⟩
    intro e' he' t ht
    rcases List.mem_cons.mp he' with rfl | he'
    · rw [g3]
      exact List.mem_append_left _ (h4 t ht)
    · exact g4 e' he' t ht

theorem buildMap_storeInv (rel : List (String × List (String × Int × String))) :
    StoreInv (buildMap rel).cities :=
  (buildFold_facts rel [] storeInv_nil).1

theorem buildMap_neighbor_mem (rel : List (String × List (String × Int × String))) :
    ∀ e ∈ rel, ∀ t ∈ e.2, t.1 ∈ (buildMap rel).cities.map City.name :=
  (buildFold_facts rel [] storeInv_nil).2.2

/-! ### Duplicate edge declarations -/

theorem edgeAttr_some {g : Map} {a b : String} {d : Int} {l : String}
    (h : edgeAttr g a b = some (d, l)) :
    ∃ c, get_city g a = some c ∧
      ∃ t ∈ c.neighbors, resolveName g t = b ∧ t.2 = (d, l) := by
  unfold edgeAttr edgeVals at h
  cases hgc : get_city g a with
  | none => rw [hgc] at h; simp at h
  | some c =>
    rw [hgc] at h
    have hmem := List.mem_of_mem_head? h
    obtain ⟨t, htf, hv⟩ := List.mem_map.mp hmem
    have := List.mem_filter.mp htf
    exact ⟨c, rfl, t, this.1, by simpa using this.2, hv⟩

theorem getOrCreate_found {cs : List City} {n : String} (h : ∃ c ∈ cs, c.name = n) :
    (getOrCreate cs n).1 = cs := by
  rcases getOrCreate_cases cs n with he | ⟨_, hfresh⟩
  · exact he
  · obtain ⟨c, hc, hcn⟩ := h
    exact absurd hcn (hfresh c hc)

theorem nodup_all_eq_length_le {α : Type _} {l : List α} {a : α}
    (hn : l.Nodup) (h : ∀ x ∈ l, x = a) : l.length ≤ 1 := by
  match l with
  | [] => simp
  | [x] => simp
  | x :: y :: xs =>
    have hx : x = a := h x (by simp)
    have hy : y = a := h y (by simp)
    rw [List.nodup_cons] at hn
    exact absurd (by rw [hx, hy]; simp : x ∈ y :: xs) hn.1

/-- An already-recorded edge makes a whole later declaration of the same pair
a no-op on the store. -/
theorem buildStep_dup_noop {cs : List City} (h : StoreInv cs) {X Y : String} {iX iY : Nat}
    (hx : iX < cs.length) (hy : iY < cs.length)
    (hnx : (cs.getD iX defaultCity).name = X) (hny : (cs.getD iY defaultCity).name = Y)
    (hkey : hasKey (cs.getD iX defaultCity) iY = true) (d' : Int) (l' : String) :
    buildStep cs (X, [(Y, d', l')]) = cs := by
  have hfX : (getOrCreate cs X).1 = cs :=
    getOrCreate_found ⟨cs.getD iX defaultCity, getD_mem hx _, hnx⟩
  have hfY : (getOrCreate cs Y).1 = cs :=
    getOrCreate_found ⟨cs.getD iY defaultCity, getD_mem hy _, hny⟩
  have hiX : (getOrCreate cs X).2 = iX := by
    have hlt := getOrCreate_idx_lt cs X
    rw [hfX] at hlt
    apply namesNodup_inj h.2.1 hlt hx
    rw [hnx]
    have := getOrCreate_name cs X
    rw [hfX] at this
    exact this
  have hiY : (getOrCreate cs Y).2 = iY := by
    have hlt := getOrCreate_idx_lt cs Y
    rw [hfY] at hlt
    apply namesNodup_inj h.2.1 hlt hy
    rw [hny]
    have := getOrCreate_name cs Y
    rw [hfY] at this
    exact this
  rw [buildStep_eq]
  show List.foldl (innerStep (getOrCreate cs X).2) (getOrCreate cs X).1 [(Y, d', l')] = cs
  rw [hfX, hiX, List.foldl_cons, List.foldl_nil]
  show add_neighbor (getOrCreate cs Y).1 iX (getOrCreate cs Y).2 d' l' = cs
  rw [hfY, hiY]
  exact add_neighbor_noop h.1 hx hkey

/-- Index of the (unique) city named `b` that an edge entry of `a` refers to,
with all the facts the duplicate-edge theorem needs. -/
theorem edge_indices {rel : List (String × List (String × Int × String))}
    {A B : String} {d : Int} {l : String}
    (h : edgeAttr (buildMap rel) A B = some (d, l)) :
    ∃ iA iB, iA < (buildMap rel).cities.length ∧ iB < (buildMap rel).cities.length ∧
      ((buildMap rel).cities.getD iA defaultCity).name = A ∧
      ((buildMap rel).cities.getD iB defaultCity).name = B ∧
      (iB, d, l) ∈ ((buildMap rel).cities.getD iA defaultCity).neighbors := by
  obtain ⟨hs, hn, hk, hv⟩ := buildMap_storeInv rel
  obtain ⟨c, hgc, t, ht, hres, hval⟩ := edgeAttr_some h
  obtain ⟨hcmem, hcname⟩ := get_city_some hgc
  obtain ⟨iA, hiA, hcA⟩ := List.mem_iff_getElem.mp hcmem
  have hgA : (buildMap rel).cities.getD iA defaultCity = c := by
    rw [getD_eq_getElem hiA]; exact hcA
  have htv : t.1 < (buildMap rel).cities.length := hv c hcmem t ht
  refine ⟨iA, t.1, hiA, htv, by rw [hgA]; exact hcname, ?_, ?_⟩
  · exact hres
  · rw [hgA]
    have : t = (t.1, t.2) := rfl
    rw [hval] at this
    rw [← this]
    exact ht

theorem eq_single_of_mem_length_le {α : Type _} {l : List α} {a : α}
    (hl : l.length ≤ 1) (ha : a ∈ l) : l = [a] := by
  match l with
  | [] => simp at ha
  | [x] =>
    have hax : a = x := List.mem_singleton.mp ha
    rw [hax]
  | x :: y :: xs => simp at hl

theorem edgeVals_eq_single {g : Map} (hinv : StoreInv g.cities) {X Y : String}
    {iX iY : Nat} {v : Int × String}
    (hx : iX < g.cities.length) (hy : iY < g.cities.length)
    (hnx : (g.cities.getD iX defaultCity).name = X)
    (hny : (g.cities.getD iY defaultCity).name = Y)
    (hmem : (iY, v) ∈ (g.cities.getD iX defaultCity).neighbors) :
    edgeVals g X Y = [v] := by
  obtain ⟨hs, hn, hk, hv⟩ := hinv
  obtain ⟨c, hgc⟩ := get_city_isSome ⟨g.cities.getD iX defaultCity, getD_mem hx _, hnx⟩
  obtain ⟨hcmem, hcname⟩ := get_city_some hgc
  have hceq : c = g.cities.getD iX defaultCity :=
    member_name_unique hn hcmem (getD_mem hx _) (by rw [hcname, hnx])
  unfold edgeVals
  simp only [hgc, hceq]
  have hFmem : (iY, v) ∈ (g.cities.getD iX defaultCity).neighbors.filter
      (fun t => resolveName g t == Y) := by
    refine List.mem_filter.mpr ⟨hmem, ?_⟩
    have : resolveName g (iY, v) = Y := hny
    simp [this]
  have hkeys : ∀ t' ∈ (g.cities.getD iX defaultCity).neighbors.filter
      (fun t => resolveName g t == Y), t'.1 = iY := by
    intro t' ht'
    obtain ⟨htm, htr⟩ := List.mem_filter.mp ht'
    have hres : (g.cities.getD t'.1 defaultCity).name = Y := by simpa [resolveName, cityAt] using htr
    exact namesNodup_inj hn (hv _ (getD_mem hx _) t' htm) hy (by rw [hres, hny])
  have hnodup : (((g.cities.getD iX defaultCity).neighbors.filter
      (fun t => resolveName g t == Y)).map (fun t => t.1)).Nodup :=
    List.Nodup.sublist (List.Sublist.map _ (List.filter_sublist _))
      (hk _ (getD_mem hx _))
  have hlen : ((g.cities.getD iX defaultCity).neighbors.filter
      (fun t => resolveName g t == Y)).length ≤ 1 := by
    have := nodup_all_eq_length_le hnodup (by
      intro x hx'
      obtain ⟨t', ht', rfl⟩ := List.mem_map.mp hx'
      exact hkeys t' ht')
    simpa using this
  have hF : List.filter (fun t => resolveName g t == Y)
      (g.cities.getD iX defaultCity).neighbors = [(iY, v)] :=
    eq_single_of_mem_length_le hlen hFmem
  rw [hF]
  simp

/-! ### Path and walk helpers -/

theorem getLast?_of_ne_nil {p : List String} (h : p ≠ []) :
    p.getLast? = some (p.getLastD "") := by
  cases hx : p.getLast? with
  | none => exact absurd (List.getLast?_eq_none_iff.mp hx) h
  | some x => rw [List.getLastD_eq_getLast?, hx]; rfl

theorem getLastD_concat' (p : List String) (a : String) : (p ++ [a]).getLastD "" = a :=
  List.getLastD_concat _ _ _

theorem head?_append_left {p : List String} (h : p ≠ []) (q : List String) :
    (p ++ q).head? = p.head? := by
  cases p with
  | nil => exact absurd rfl h
  | cons x xs => rfl

theorem dropLast_snoc_self {p : List String} (h : p ≠ []) :
    p.dropLast ++ [p.getLastD ""] = p := by
  have := List.dropLast_append_getLast h
  rwa [List.getLast_eq_iff_getLast?_eq_some h |>.mpr (getLast?_of_ne_nil h)] at this

theorem getD_eq_getElem_str {w : List String} {i : Nat} (h : i < w.length) :
    w.getD i "" = w[i] := by
  rw [List.getD_eq_getElem?_getD, List.getElem?_eq_getElem h]
  rfl

theorem nodup_getD_inj {w : List String} (hn : w.Nodup) {a b : Nat}
    (ha : a < w.length) (hb : b < w.length)
    (h : w.getD a "" = w.getD b "") : a = b := by
  rw [getD_eq_getElem_str ha, getD_eq_getElem_str hb] at h
  exact (List.Nodup.getElem_inj_iff hn).mp h

theorem head?_getD_zero {w : List String} {s : String} (h : w.head? = some s) :
    w.getD 0 "" = s := by
  cases w with
  | nil => simp at h
  | cons x xs =>
    rw [List.head?_cons, Option.some.injEq] at h
    rw [List.getD_cons_zero]
    exact h

theorem getLast?_getD {w : List String} {u : String} (h : w.getLast? = some u) :
    w.getD (w.length - 1) "" = u := by
  rw [List.getLast?_eq_getElem?] at h
  rw [List.getD_eq_getElem?_getD, h]
  rfl

theorem chain'_getD {R : String → String → Prop} {w : List String}
    (h : List.Chain' R w) {i : Nat} (hi : i + 1 < w.length) :
    R (w.getD i "") (w.getD (i + 1) "") := by
  have hi' : i < w.length - 1 := by omega
  have := List.chain'_iff_get.mp h i hi'
  rw [getD_eq_getElem_str (by omega), getD_eq_getElem_str hi]
  simpa [List.get_eq_getElem] using this

theorem adjacent_elim {g : Map} {u v : String} {c : City}
    (h : adjacent g u v) (hgc : get_city g u = some c) :
    ∃ t₀ ∈ c.neighbors, resolveName g t₀ = v := by
  unfold adjacent adjacentB at h
  rw [hgc] at h
  obtain ⟨t₀, ht₀, hv⟩ := List.any_eq_true.mp h
  exact ⟨t₀, ht₀, by simpa using hv⟩

theorem adjacent_intro {g : Map} {u v : String} {c : City} {t₀ : Nat × Int × String}
    (hgc : get_city g u = some c) (ht₀ : t₀ ∈ c.neighbors)
    (hv : resolveName g t₀ = v) : adjacent g u v := by
  unfold adjacent adjacentB
  rw [hgc]
  exact List.any_eq_true.mpr ⟨t₀, ht₀, by simp [hv]⟩

theorem not_adjacent_of_none {g : Map} {u : String} (h : get_city g u = none)
    (v : String) : ¬ adjacent g u v := by
  unfold adjacent adjacentB
  rw [h]
  simp

theorem not_adjacent_of_empty {g : Map} {u : String} {c : City}
    (hgc : get_city g u = some c) (h : c.neighbors.isEmpty) (v : String) :
    ¬ adjacent g u v := by
  unfold adjacent adjacentB
  rw [hgc]
  rw [List.isEmpty_iff] at h
  simp [h]

/-! ### `expand` characterization -/

theorem expand_inl {g : Map} {goal : String} {p : List String}
    {ns : List (Nat × Int × String)} {r : List String}
    (h : expand g goal p ns = Sum.inl r) :
    r = p ++ [goal] ∧ ∃ t₀ ∈ ns, resolveName g t₀ = goal := by
  induction ns generalizing r with
  | nil => simp [expand] at h
  | cons t ts ih =>
    rw [expand] at h
    by_cases hg : resolveName g t = goal
    · rw [if_pos hg] at h
      have hr : p ++ [resolveName g t] = r := by simpa using h
      exact ⟨by rw [← hr, hg], t, List.mem_cons_self _ _, hg⟩
    · rw [if_neg hg] at h
      cases hm : expand g goal p ts with
      | inl r' =>
        rw [hm] at h
        have hr : r' = r := by simpa using h
        obtain ⟨h1, t₀, ht₀, hres⟩ := ih (hr ▸ hm)
        exact ⟨h1, t₀, List.mem_cons_of_mem _ ht₀, hres⟩
      | inr qs' => rw [hm] at h; simp at h

theorem expand_inr {g : Map} {goal : String} {p : List String}
    {ns : List (Nat × Int × String)} {qs : List (List String)}
    (h : expand g goal p ns = Sum.inr qs) :
    qs = ns.map (fun t₀ => p ++ [resolveName g t₀]) ∧
    ∀ t₀ ∈ ns, resolveName g t₀ ≠ goal := by
  induction ns generalizing qs with
  | nil =>
    have hq : ([] : List (List String)) = qs := by simpa [expand] using h
    exact ⟨by rw [← hq]; simp, by simp⟩
  | cons t ts ih =>
    rw [expand] at h
    by_cases hg : resolveName g t = goal
    · rw [if_pos hg] at h; simp at h
    · rw [if_neg hg] at h
      cases hm : expand g goal p ts with
      | inl r' => rw [hm] at h; simp at h
      | inr qs' =>
        rw [hm] at h
        obtain ⟨h1, h2⟩ := ih hm
        have hq : (p ++ [resolveName g t]) :: qs' = qs := by simpa using h
        constructor
        · rw [← hq, h1]
          simp
        · intro t₀ ht₀
          rcases List.mem_cons.mp ht₀ with rfl | ht₀
          · exact hg
          · exact h2 t₀ ht₀

/-! ### Soundness of the search result (every returned path is a walk) -/

/-- The per-path facts maintained for every queued path. -/
def QueueWalk (g : Map) (s : String) (q : List (List String)) : Prop :=
  ∀ p ∈ q, p ≠ [] ∧ p.head? = some s ∧ List.Chain' (adjacent g) p

theorem queueWalk_expand {g : Map} {s : String} {p : List String} {rest : List (List String)}
    {city : City} {qs : List (List String)}
    (hq : QueueWalk g s (p :: rest))
    (hgc : get_city g (p.getLastD "") = some city)
    (hqs : qs = city.neighbors.map (fun t₀ => p ++ [resolveName g t₀])) :
    QueueWalk g s (rest ++ qs) := by
  intro p' hp'
  rcases List.mem_append.mp hp' with hp' | hp'
  · exact hq p' (List.mem_cons_of_mem _ hp')
  · obtain ⟨hne, hhead, hchain⟩ := hq p (List.mem_cons_self _ _)
    rw [hqs] at hp'
    obtain ⟨t₀, ht₀, rfl⟩ := List.mem_map.mp hp'
    refine ⟨by simp, by rw [head?_append_left hne]; exact hhead, ?_⟩
    rw [List.chain'_append]
    refine ⟨hchain, List.chain'_singleton _, ?_⟩
    intro x hx y hy
    rw [getLast?_of_ne_nil hne] at hx
    rw [Option.mem_def, Option.some.injEq] at hx
    simp only [Option.mem_def, List.head?_cons, Option.some.injEq] at hy
    subst hx
    subst hy
    exact adjacent_intro hgc ht₀ rfl

theorem bfsAux_sound (g : Map) (s t : String) :
    ∀ (fuel : Nat) (q : List (List String)) (e : List String) (res : List String),
      QueueWalk g s q →
      bfsAux g t fuel q e = some (some res) →
      res ≠ [] ∧ res.head? = some s ∧ res.getLast? = some t ∧
        List.Chain' (adjacent g) res := by
  intro fuel
  induction fuel with
  | zero => intro q e res _ h; simp [bfsAux] at h
  | succ n ih =>
    intro q e res hq h
    match q with
    | [] => simp [bfsAux] at h
    | p :: rest =>
      have hrest : QueueWalk g s rest := fun p' hp' => hq p' (List.mem_cons_of_mem _ hp')
      by_cases hmem : p.getLastD "" ∈ e
      · rw [bfsAux_step_skip hmem] at h
        exact ih rest e res hrest h
      · cases hgc : get_city g (p.getLastD "") with
        | none =>
          rw [bfsAux_step_none hmem hgc] at h
          exact ih rest _ res hrest h
        | some city =>
          by_cases hnil : city.neighbors.isEmpty
          · rw [bfsAux_step_empty hmem hgc hnil] at h
            exact ih rest _ res hrest h
          · cases hex : expand g t p city.neighbors with
            | inl found =>
              rw [bfsAux_step_inl hmem hgc hnil hex] at h
              have hfr : found = res := by simpa using h
              obtain ⟨hfound, t₀, ht₀, hres⟩ := expand_inl hex
              subst hfr
              obtain ⟨hne, hhead, hchain⟩ := hq p (List.mem_cons_self _ _)
              rw [hfound]
              refine ⟨by simp, by rw [head?_append_left hne]; exact hhead,
                by rw [List.getLast?_append_of_ne_nil _ (by simp)]; rfl, ?_⟩
              rw [List.chain'_append]
              refine ⟨hchain, List.chain'_singleton _, ?_⟩
              intro x hx y hy
              rw [getLast?_of_ne_nil hne] at hx
              rw [Option.mem_def, Option.some.injEq] at hx
              simp only [Option.mem_def, List.head?_cons, Option.some.injEq] at hy
              subst hx
              subst hy
              exact adjacent_intro hgc ht₀ hres
            | inr newPaths =>
              rw [bfsAux_step_inr hmem hgc hnil hex] at h
              exact ih (rest ++ newPaths) _ res
                (queueWalk_expand hq hgc (expand_inr hex).1) h

/-! ### Termination of the loop -/

theorem filter_length_mono {α : Type _} {p q : α → Bool} (h : ∀ x, p x = true → q x = true) :
    ∀ U : List α, (U.filter p).length ≤ (U.filter q).length := by
  intro U
  induction U with
  | nil => simp
  | cons x xs ih =>
    by_cases hp : p x = true
    · rw [List.filter_cons_of_pos hp, List.filter_cons_of_pos (h x hp)]
      simpa using ih
    · rw [List.filter_cons_of_neg (by simpa using hp)]
      by_cases hq : q x = true
      · rw [List.filter_cons_of_pos hq]
        exact le_trans ih (by simp)
      · rw [List.filter_cons_of_neg (by simpa using hq)]
        exact ih

theorem unexplored_mono (U e : List String) (L : String) :
    (U.filter (fun x => decide (x ∉ e ++ [L]))).length ≤
    (U.filter (fun x => decide (x ∉ e))).length := by
  apply filter_length_mono
  intro x hx
  simp only [decide_eq_true_eq] at hx ⊢
  intro hc
  exact hx (List.mem_append_left _ hc)

theorem unexplored_strict {U e : List String} {L : String} (hU : L ∈ U) (he : L ∉ e) :
    (U.filter (fun x => decide (x ∉ e ++ [L]))).length <
    (U.filter (fun x => decide (x ∉ e))).length := by
  induction U with
  | nil => simp at hU
  | cons x xs ih =>
    rw [List.filter_cons, List.filter_cons]
    by_cases hxL : x = L
    · subst hxL
      rw [if_neg (by simp), if_pos (by simpa using he)]
      simp only [List.length_cons]
      exact Nat.lt_succ_of_le (unexplored_mono xs e x)
    · have hU' : L ∈ xs := by
        rcases List.mem_cons.mp hU with h | h
        · exact absurd h.symm hxL
        · exact h
      by_cases hk : x ∈ e
      · have hk2 : x ∈ e ++ [L] := List.mem_append_left _ hk
        rw [if_neg (by simp only [decide_eq_true_eq, not_not]; exact hk2),
          if_neg (by simp only [decide_eq_true_eq, not_not]; exact hk)]
        exact ih hU'
      · have hk2 : x ∉ e ++ [L] := by
          intro hc
          rcases List.mem_append.mp hc with hc | hc
          · exact hk hc
          · exact hxL (by simpa using hc)
        rw [if_pos (by simpa using hk2), if_pos (by simpa using hk)]
        simp only [List.length_cons]
        exact Nat.succ_lt_succ (ih hU')

theorem nbr_length_le_degSum {g : Map} {c : City} (hc : c ∈ g.cities) :
    c.neighbors.length ≤ degSum g := by
  unfold degSum
  exact List.single_le_sum (by simp) _ (List.mem_map_of_mem _ hc)

theorem resolved_mem_allNbrNames {g : Map} {city : City} (hc : city ∈ g.cities)
    {t₀ : Nat × Int × String} (ht : t₀ ∈ city.neighbors) :
    resolveName g t₀ ∈ allNbrNames g := by
  unfold allNbrNames
  rw [List.mem_flatten]
  exact ⟨city.neighbors.map (resolveName g), List.mem_map_of_mem _ hc,
    List.mem_map_of_mem _ ht⟩

theorem bfsAux_total (g : Map) (s t : String) :
    ∀ (fuel : Nat) (q : List (List String)) (e : List String),
      (∀ p ∈ q, p ≠ []) →
      (∀ p ∈ q, p.getLastD "" ∈ s :: allNbrNames g) →
      ((s :: allNbrNames g).filter (fun x => decide (x ∉ e))).length * (degSum g + 1)
        + q.length < fuel →
      ∃ r, bfsAux g t fuel q e = some r := by
  intro fuel
  induction fuel with
  | zero => intro q e _ _ hm; omega
  | succ n ih =>
    intro q e hne hlast hm
    match q with
    | [] => exact ⟨none, rfl⟩
    | p :: rest =>
      have hnerest : ∀ p' ∈ rest, p' ≠ [] :=
        fun p' h' => hne p' (List.mem_cons_of_mem _ h')
      have hlastrest : ∀ p' ∈ rest, p'.getLastD "" ∈ s :: allNbrNames g :=
        fun p' h' => hlast p' (List.mem_cons_of_mem _ h')
      simp only [List.length_cons] at hm
      by_cases hmem : p.getLastD "" ∈ e
      · rw [bfsAux_step_skip hmem]
        apply ih rest e hnerest hlastrest
        omega
      · have hLU : p.getLastD "" ∈ s :: allNbrNames g := hlast p (List.mem_cons_self _ _)
        have hdec := unexplored_strict (e := e) hLU hmem
        cases hgc : get_city g (p.getLastD "") with
        | none =>
          rw [bfsAux_step_none hmem hgc]
          apply ih rest _ hnerest hlastrest
          have hmul := Nat.mul_le_mul_right (degSum g + 1) (Nat.le_of_lt hdec)
          omega
        | some city =>
          by_cases hnil : city.neighbors.isEmpty
          · rw [bfsAux_step_empty hmem hgc hnil]
            apply ih rest _ hnerest hlastrest
            have hmul := Nat.mul_le_mul_right (degSum g + 1) (Nat.le_of_lt hdec)
            omega
          · cases hex : expand g t p city.neighbors with
            | inl found => exact ⟨some found, bfsAux_step_inl hmem hgc hnil hex⟩
            | inr qs =>
              rw [bfsAux_step_inr hmem hgc hnil hex]
              obtain ⟨hqs, _⟩ := expand_inr hex
              apply ih (rest ++ qs) _
              · intro p' hp'
                rcases List.mem_append.mp hp' with hp' | hp'
                · exact hnerest p' hp'
                · rw [hqs] at hp'
                  obtain ⟨t₀, _, rfl⟩ := List.mem_map.mp hp'
                  simp
              · intro p' hp'
                rcases List.mem_append.mp hp' with hp' | hp'
                · exact hlastrest p' hp'
                · rw [hqs] at hp'
                  obtain ⟨t₀, ht₀, rfl⟩ := List.mem_map.mp hp'
                  rw [getLastD_concat']
                  exact List.mem_cons_of_mem _
                    (resolved_mem_allNbrNames (get_city_some hgc).1 ht₀)
              · have hlen : qs.length ≤ degSum g := by
                  rw [hqs, List.length_map]
                  exact nbr_length_le_degSum (get_city_some hgc).1
                have hF : ((s :: allNbrNames g).filter
                    (fun x => decide (x ∉ e ++ [p.getLastD ""]))).length + 1 ≤
                    ((s :: allNbrNames g).filter (fun x => decide (x ∉ e))).length := hdec
                have h1 := Nat.mul_le_mul_right (degSum g + 1) hF
                have h2 : (((s :: allNbrNames g).filter
                    (fun x => decide (x ∉ e ++ [p.getLastD ""]))).length + 1) * (degSum g + 1) =
                    ((s :: allNbrNames g).filter
                    (fun x => decide (x ∉ e ++ [p.getLastD ""]))).length * (degSum g + 1) +
                    (degSum g + 1) := by
                  rw [Nat.add_mul, Nat.one_mul]
                rw [List.length_append]
                omega

/-! ### The BFS level invariant

For a query with `start ≠ goal` the loop maintains: every queued path is a
walk from `start` whose last node is not the goal; all of a path except its
last node is already explored and duplicate-free; the goal is never explored;
queue path lengths are sorted and span at most two consecutive levels; and
every duplicate-free walk from `start` to an unexplored node has a queued
path sitting on it at the right depth. -/

structure BfsInv (g : Map) (s t : String) (q : List (List String)) (e : List String) :
    Prop where
  ne : s ≠ t
  nonempty : ∀ p ∈ q, p ≠ []
  headStart : ∀ p ∈ q, p.head? = some s
  chain : ∀ p ∈ q, List.Chain' (adjacent g) p
  lastNotGoal : ∀ p ∈ q, p.getLastD "" ≠ t
  goalNotExplored : t ∉ e
  dropNodup : ∀ p ∈ q, p.dropLast.Nodup
  dropExplored : ∀ p ∈ q, ∀ x ∈ p.dropLast, x ∈ e
  sorted : q.Pairwise (fun p₁ p₂ => p₁.length ≤ p₂.length)
  window : ∀ p₁ ∈ q, ∀ p₂ ∈ q, p₁.length ≤ p₂.length + 1
  complete : ∀ u w, isWalkFrom g s u w → w.Nodup → u ∉ e →
    ∃ i p, p ∈ q ∧ i < w.length ∧ p.getLastD "" = w.getD i "" ∧ p.length ≤ i + 1 ∧
      ∀ j, i ≤ j → j < w.length → w.getD j "" ∉ e

theorem bfsInv_init {g : Map} {s t : String} (hne : s ≠ t) : BfsInv g s t [[s]] [] := by
  have hmem : ∀ p ∈ [[s]], p = [s] := by intro p hp; simpa using hp
  refine ⟨hne, ?_, ?_, ?_, ?_, by simp, ?_, ?_, ?_, ?_, ?_⟩
  · intro p hp; rw [hmem p hp]; simp
  · intro p hp; rw [hmem p hp]; rfl
  · intro p hp; rw [hmem p hp]; exact List.chain'_singleton _
  · intro p hp; rw [hmem p hp]; simpa using hne
  · intro p hp; rw [hmem p hp]; simp
  · intro p hp; rw [hmem p hp]; simp
  · simp
  · intro p₁ h₁ p₂ h₂; rw [hmem p₁ h₁, hmem p₂ h₂]; omega
  · intro u w hw _ _
    refine ⟨0, [s], by simp, ?_, ?_, by simp, by simp⟩
    · exact List.length_pos.mpr hw.1
    · rw [head?_getD_zero hw.2.1]; rfl

theorem bfsInv_skip {g : Map} {s t : String} {p : List String} {rest : List (List String)}
    {e : List String} (h : BfsInv g s t (p :: rest) e) (hmem : p.getLastD "" ∈ e) :
    BfsInv g s t rest e := by
  refine ⟨h.ne, fun p' hp' => h.nonempty p' (List.mem_cons_of_mem _ hp'),
    fun p' hp' => h.headStart p' (List.mem_cons_of_mem _ hp'),
    fun p' hp' => h.chain p' (List.mem_cons_of_mem _ hp'),
    fun p' hp' => h.lastNotGoal p' (List.mem_cons_of_mem _ hp'),
    h.goalNotExplored,
    fun p' hp' => h.dropNodup p' (List.mem_cons_of_mem _ hp'),
    fun p' hp' => h.dropExplored p' (List.mem_cons_of_mem _ hp'),
    (List.pairwise_cons.mp h.sorted).2,
    fun p₁ h₁ p₂ h₂ =>
      h.window p₁ (List.mem_cons_of_mem _ h₁) p₂ (List.mem_cons_of_mem _ h₂), ?_⟩
  intro u w hw hnd hu
  obtain ⟨i, p', hp', hi, hlast', hplen, hrange⟩ := h.complete u w hw hnd hu
  rcases List.mem_cons.mp hp' with rfl | hp'
  · exfalso
    apply hrange i (le_refl _) hi
    rw [← hlast']
    exact hmem
  · exact ⟨i, p', hp', hi, hlast', hplen, hrange⟩

theorem bfsInv_dropExplore {g : Map} {s t : String} {p : List String}
    {rest : List (List String)} {e : List String} (h : BfsInv g s t (p :: rest) e)
    (hmem : p.getLastD "" ∉ e)
    (hnoadj : ∀ v, ¬ adjacent g (p.getLastD "") v) :
    BfsInv g s t rest (e ++ [p.getLastD ""]) := by
  have hLt : p.getLastD "" ≠ t := h.lastNotGoal p (List.mem_cons_self _ _)
  refine ⟨h.ne, fun p' hp' => h.nonempty p' (List.mem_cons_of_mem _ hp'),
    fun p' hp' => h.headStart p' (List.mem_cons_of_mem _ hp'),
    fun p' hp' => h.chain p' (List.mem_cons_of_mem _ hp'),
    fun p' hp' => h.lastNotGoal p' (List.mem_cons_of_mem _ hp'), ?_,
    fun p' hp' => h.dropNodup p' (List.mem_cons_of_mem _ hp'),
    fun p' hp' x hx => List.mem_append_left _
      (h.dropExplored p' (List.mem_cons_of_mem _ hp') x hx),
    (List.pairwise_cons.mp h.sorted).2,
    fun p₁ h₁ p₂ h₂ =>
      h.window p₁ (List.mem_cons_of_mem _ h₁) p₂ (List.mem_cons_of_mem _ h₂), ?_⟩
  · intro hc
    rcases List.mem_append.mp hc with hc | hc
    · exact h.goalNotExplored hc
    · have hct : t = p.getLastD "" := by simpa using hc
      exact hLt hct.symm
  · intro u w hw hnd hu
    have hu' : u ∉ e := fun hc => hu (List.mem_append_left _ hc)
    have huL : u ≠ p.getLastD "" := by
      intro hc
      exact hu (List.mem_append_right _ (by rw [hc]; exact List.mem_singleton_self _))
    obtain ⟨i, p', hp', hi, hlast', hplen, hrange⟩ := h.complete u w hw hnd hu'
    have hwL : ∀ j, i ≤ j → j < w.length → w.getD j "" ≠ p.getLastD "" := by
      intro j hij hj hEq
      by_cases hjlast : j = w.length - 1
      · have hwu : w.getD j "" = u := by rw [hjlast]; exact getLast?_getD hw.2.2.1
        exact huL (by rw [← hwu, hEq])
      · have hj1 : j + 1 < w.length := by omega
        have hadj := chain'_getD hw.2.2.2 hj1
        rw [hEq] at hadj
        exact hnoadj _ hadj
    have hp'rest : p' ∈ rest := by
      rcases List.mem_cons.mp hp' with rfl | hp'
      · exact absurd hlast'.symm (hwL i (le_refl _) hi)
      · exact hp'
    refine ⟨i, p', hp'rest, hi, hlast', hplen, ?_⟩
    intro j hij hj hc
    rcases List.mem_append.mp hc with hc | hc
    · exact hrange j hij hj hc
    · exact hwL j hij hj (by simpa using hc)

theorem front_path_nodup {g : Map} {s t : String} {p : List String}
    {rest : List (List String)} {e : List String} (h : BfsInv g s t (p :: rest) e)
    (hmem : p.getLastD "" ∉ e) : p.Nodup := by
  have hpne : p ≠ [] := h.nonempty p (List.mem_cons_self _ _)
  have h1 := h.dropNodup p (List.mem_cons_self _ _)
  have h2 := h.dropExplored p (List.mem_cons_self _ _)
  have h3 : p.getLastD "" ∉ p.dropLast := fun hc => hmem (h2 _ hc)
  rw [← dropLast_snoc_self hpne]
  rw [List.nodup_append]
  refine ⟨h1, by simp, ?_⟩
  intro x hx hc
  have hxL : x = p.getLastD "" := by simpa using hc
  rw [hxL] at hx
  exact h3 hx

theorem mem_front_split {p : List String} (hpne : p ≠ []) {x : String} (hx : x ∈ p) :
    x ∈ p.dropLast ∨ x = p.getLastD "" := by
  rw [← dropLast_snoc_self hpne] at hx
  rcases List.mem_append.mp hx with hx | hx
  · exact Or.inl hx
  · exact Or.inr (by simpa using hx)

theorem bfsInv_expand {g : Map} {s t : String} {p : List String}
    {rest : List (List String)} {e : List String} {city : City} {qs : List (List String)}
    (h : BfsInv g s t (p :: rest) e) (hmem : p.getLastD "" ∉ e)
    (hgc : get_city g (p.getLastD "") = some city)
    (hex : expand g t p city.neighbors = Sum.inr qs) :
    BfsInv g s t (rest ++ qs) (e ++ [p.getLastD ""]) := by
  obtain ⟨hqs, hngoal⟩ := expand_inr hex
  have hpne : p ≠ [] := h.nonempty p (List.mem_cons_self _ _)
  have hLt : p.getLastD "" ≠ t := h.lastNotGoal p (List.mem_cons_self _ _)
  have hqw : QueueWalk g s (p :: rest) := fun p' hp' =>
    ⟨h.nonempty p' hp', h.headStart p' hp', h.chain p' hp'⟩
  have hqw' := queueWalk_expand hqw hgc hqs
  have hqsShape : ∀ p' ∈ qs, ∃ t₀ ∈ city.neighbors, p' = p ++ [resolveName g t₀] := by
    intro p' hp'
    rw [hqs] at hp'
    obtain ⟨t₀, ht₀, rfl⟩ := List.mem_map.mp hp'
    exact ⟨t₀, ht₀, rfl⟩
  have hqsLen : ∀ p' ∈ qs, p'.length = p.length + 1 := by
    intro p' hp'
    obtain ⟨t₀, _, rfl⟩ := hqsShape p' hp'
    simp
  have hpNodup := front_path_nodup h hmem
  refine ⟨h.ne, fun p' hp' => (hqw' p' hp').1, fun p' hp' => (hqw' p' hp').2.1,
    fun p' hp' => (hqw' p' hp').2.2, ?_, ?_, ?_, ?_, ?_, ?_, ?_⟩
  · intro p' hp'
    rcases List.mem_append.mp hp' with hp' | hp'
    · exact h.lastNotGoal p' (List.mem_cons_of_mem _ hp')
    · obtain ⟨t₀, ht₀, rfl⟩ := hqsShape p' hp'
      rw [getLastD_concat']
      exact hngoal t₀ ht₀
  · intro hc
    rcases List.mem_append.mp hc with hc | hc
    · exact h.goalNotExplored hc
    · have hct : t = p.getLastD "" := by simpa using hc
      exact hLt hct.symm
  · intro p' hp'
    rcases List.mem_append.mp hp' with hp' | hp'
    · exact h.dropNodup p' (List.mem_cons_of_mem _ hp')
    · obtain ⟨t₀, _, rfl⟩ := hqsShape p' hp'
      rw [List.dropLast_concat]
      exact hpNodup
  · intro p' hp' x hx
    rcases List.mem_append.mp hp' with hp' | hp'
    · exact List.mem_append_left _ (h.dropExplored p' (List.mem_cons_of_mem _ hp') x hx)
    · obtain ⟨t₀, _, rfl⟩ := hqsShape p' hp'
      rw [List.dropLast_concat] at hx
      rcases mem_front_split hpne hx with hx | hx
      · exact List.mem_append_left _ (h.dropExplored p (List.mem_cons_self _ _) x hx)
      · exact List.mem_append_right _ (by simp [hx])
  · rw [List.pairwise_append]
    refine ⟨(List.pairwise_cons.mp h.sorted).2, ?_, ?_⟩
    · apply List.pairwise_of_forall_mem_list
      intro a ha b hb
      rw [hqsLen a ha, hqsLen b hb]
    · intro a ha b hb
      rw [hqsLen b hb]
      exact h.window a (List.mem_cons_of_mem _ ha) p (List.mem_cons_self _ _)
  · intro p₁ h₁ p₂ h₂
    rcases List.mem_append.mp h₁ with h₁ | h₁ <;> rcases List.mem_append.mp h₂ with h₂ | h₂
    · exact h.window p₁ (List.mem_cons_of_mem _ h₁) p₂ (List.mem_cons_of_mem _ h₂)
    · rw [hqsLen p₂ h₂]
      have := h.window p₁ (List.mem_cons_of_mem _ h₁) p (List.mem_cons_self _ _)
      omega
    · rw [hqsLen p₁ h₁]
      have := (List.pairwise_cons.mp h.sorted).1 p₂ h₂
      omega
    · rw [hqsLen p₁ h₁, hqsLen p₂ h₂]
      omega
  · intro u w hw hnd hu
    have hu' : u ∉ e := fun hc => hu (List.mem_append_left _ hc)
    have huL : u ≠ p.getLastD "" := by
      intro hc
      exact hu (List.mem_append_right _ (by rw [hc]; exact List.mem_singleton_self _))
    obtain ⟨i, p', hp', hi, hlast', hplen, hrange⟩ := h.complete u w hw hnd hu'
    by_cases hC : ∀ j, i ≤ j → j < w.length → w.getD j "" ≠ p.getLastD ""
    · have hp'rest : p' ∈ rest := by
        rcases List.mem_cons.mp hp' with rfl | hp'
        · exact absurd hlast'.symm (hC i (le_refl _) hi)
        · exact hp'
      refine ⟨i, p', List.mem_append_left _ hp'rest, hi, hlast', hplen, ?_⟩
      intro j hij hj hc
      rcases List.mem_append.mp hc with hc | hc
      · exact hrange j hij hj hc
      · exact hC j hij hj (by simpa using hc)
    · push_neg at hC
      obtain ⟨j₀, hij₀, hj₀, hEqL⟩ := hC
      have hj₀last : j₀ ≠ w.length - 1 := by
        intro heq
        have hwu : w.getD j₀ "" = u := by rw [heq]; exact getLast?_getD hw.2.2.1
        exact huL (by rw [← hwu, hEqL])
      have hj₁ : j₀ + 1 < w.length := by omega
      have hadj : adjacent g (p.getLastD "") (w.getD (j₀ + 1) "") := by
        have := chain'_getD hw.2.2.2 hj₁
        rwa [hEqL] at this
      obtain ⟨t₀, ht₀, hres⟩ := adjacent_elim hadj hgc
      have hnew : p ++ [w.getD (j₀ + 1) ""] ∈ qs := by
        rw [hqs]
        exact List.mem_map.mpr ⟨t₀, ht₀, by rw [hres]⟩
      refine ⟨j₀ + 1, p ++ [w.getD (j₀ + 1) ""], List.mem_append_right _ hnew, hj₁,
        getLastD_concat' _ _, ?_, ?_⟩
      · have hfront : p.length ≤ p'.length := by
          rcases List.mem_cons.mp hp' with rfl | hp'r
          · exact le_refl _
          · exact (List.pairwise_cons.mp h.sorted).1 p' hp'r
        have hpi : p.length ≤ i + 1 := le_trans hfront hplen
        simp only [List.length_append, List.length_singleton]
        omega
      · intro j hj hjlen hc
        rcases List.mem_append.mp hc with hc | hc
        · exact hrange j (by omega) hjlen hc
        · have hcL : w.getD j "" = p.getLastD "" := by simpa using hc
          have hj0 : j = j₀ := nodup_getD_inj hnd hjlen hj₀ (by rw [hcL, hEqL])
          omega

/-! ### Results of the loop under the invariant -/

theorem bfsAux_nodup (g : Map) (s t : String) :
    ∀ (fuel : Nat) (q : List (List String)) (e : List String) (res : List String),
      BfsInv g s t q e → bfsAux g t fuel q e = some (some res) → res.Nodup := by
  intro fuel
  induction fuel with
  | zero => intro q e res _ h; simp [bfsAux] at h
  | succ n ih =>
    intro q e res hinv h
    match q with
    | [] => simp [bfsAux] at h
    | p :: rest =>
      by_cases hmem : p.getLastD "" ∈ e
      · rw [bfsAux_step_skip hmem] at h
        exact ih _ _ _ (bfsInv_skip hinv hmem) h
      · cases hgc : get_city g (p.getLastD "") with
        | none =>
          rw [bfsAux_step_none hmem hgc] at h
          exact ih _ _ _ (bfsInv_dropExplore hinv hmem (not_adjacent_of_none hgc)) h
        | some city =>
          by_cases hnil : city.neighbors.isEmpty
          · rw [bfsAux_step_empty hmem hgc hnil] at h
            exact ih _ _ _
              (bfsInv_dropExplore hinv hmem (not_adjacent_of_empty hgc hnil)) h
          · cases hex : expand g t p city.neighbors with
            | inl found =>
              rw [bfsAux_step_inl hmem hgc hnil hex] at h
              have hfr : found = res := by simpa using h
              obtain ⟨hfound, _, _, _⟩ := expand_inl hex
              rw [← hfr, hfound]
              have hpne : p ≠ [] := hinv.nonempty p (List.mem_cons_self _ _)
              have hpNodup := front_path_nodup hinv hmem
              have htp : t ∉ p := by
                intro hc
                rcases mem_front_split hpne hc with hc | hc
                · exact hinv.goalNotExplored
                    (hinv.dropExplored p (List.mem_cons_self _ _) t hc)
                · exact hinv.lastNotGoal p (List.mem_cons_self _ _) hc.symm
              rw [List.nodup_append]
              exact ⟨hpNodup, by simp, by
                intro x hx hc
                have hxt : x = t := by simpa using hc
                rw [hxt] at hx
                exact htp hx⟩
            | inr qs =>
              rw [bfsAux_step_inr hmem hgc hnil hex] at h
              exact ih _ _ _ (bfsInv_expand hinv hmem hgc hex) h

theorem bfsAux_min (g : Map) (s t : String) :
    ∀ (fuel : Nat) (q : List (List String)) (e : List String) (res : List String),
      BfsInv g s t q e → bfsAux g t fuel q e = some (some res) →
      ∀ w, isWalkFrom g s t w → w.Nodup → res.length ≤ w.length := by
  intro fuel
  induction fuel with
  | zero => intro q e res _ h; simp [bfsAux] at h
  | succ n ih =>
    intro q e res hinv h w hw hnd
    match q with
    | [] => simp [bfsAux] at h
    | p :: rest =>
      by_cases hmem : p.getLastD "" ∈ e
      · rw [bfsAux_step_skip hmem] at h
        exact ih _ _ _ (bfsInv_skip hinv hmem) h w hw hnd
      · cases hgc : get_city g (p.getLastD "") with
        | none =>
          rw [bfsAux_step_none hmem hgc] at h
          exact ih _ _ _ (bfsInv_dropExplore hinv hmem (not_adjacent_of_none hgc)) h w hw hnd
        | some city =>
          by_cases hnil : city.neighbors.isEmpty
          · rw [bfsAux_step_empty hmem hgc hnil] at h
            exact ih _ _ _
              (bfsInv_dropExplore hinv hmem (not_adjacent_of_empty hgc hnil)) h w hw hnd
          · cases hex : expand g t p city.neighbors with
            | inl found =>
              rw [bfsAux_step_inl hmem hgc hnil hex] at h
              have hfr : found = res := by simpa using h
              obtain ⟨hfound, _, _, _⟩ := expand_inl hex
              obtain ⟨i, p', hp', hi, hlast', hplen, _⟩ :=
                hinv.complete t w hw hnd hinv.goalNotExplored
              have hne_i : w.getD i "" ≠ t := by
                rw [← hlast']
                exact hinv.lastNotGoal p' hp'
              have hwlast : w.getD (w.length - 1) "" = t := getLast?_getD hw.2.2.1
              have hilast : i ≠ w.length - 1 := by
                intro heq
                rw [heq] at hne_i
                exact hne_i hwlast
              have hfront : p.length ≤ p'.length := by
                rcases List.mem_cons.mp hp' with rfl | hp'r
                · exact le_refl _
                · exact (List.pairwise_cons.mp hinv.sorted).1 p' hp'r
              have hreslen : res.length = p.length + 1 := by
                rw [← hfr, hfound]
                simp
              rw [hreslen]
              omega
            | inr qs =>
              rw [bfsAux_step_inr hmem hgc hnil hex] at h
              exact ih _ _ _ (bfsInv_expand hinv hmem hgc hex) h w hw hnd

theorem bfsAux_complete (g : Map) (s t : String) :
    ∀ (fuel : Nat) (q : List (List String)) (e : List String),
      BfsInv g s t q e →
      (∀ p ∈ q, p.getLastD "" ∈ s :: allNbrNames g) →
      ((s :: allNbrNames g).filter (fun x => decide (x ∉ e))).length * (degSum g + 1)
        + q.length < fuel →
      (∃ w, isWalkFrom g s t w ∧ w.Nodup) →
      ∃ res, bfsAux g t fuel q e = some (some res) := by
  intro fuel
  induction fuel with
  | zero => intro q e _ _ hm _; omega
  | succ n ih =>
    intro q e hinv hlast hm hex
    match q with
    | [] =>
      obtain ⟨w, hw, hnd⟩ := hex
      obtain ⟨i, p', hp', _⟩ := hinv.complete t w hw hnd hinv.goalNotExplored
      exact absurd hp' (List.not_mem_nil _)
    | p :: rest =>
      have hlastrest : ∀ p' ∈ rest, p'.getLastD "" ∈ s :: allNbrNames g :=
        fun p' h' => hlast p' (List.mem_cons_of_mem _ h')
      simp only [List.length_cons] at hm
      by_cases hmem : p.getLastD "" ∈ e
      · rw [bfsAux_step_skip hmem]
        apply ih rest e (bfsInv_skip hinv hmem) hlastrest ?_ hex
        omega
      · have hLU : p.getLastD "" ∈ s :: allNbrNames g := hlast p (List.mem_cons_self _ _)
        have hdec := unexplored_strict (e := e) hLU hmem
        cases hgc : get_city g (p.getLastD "") with
        | none =>
          rw [bfsAux_step_none hmem hgc]
          apply ih rest _ (bfsInv_dropExplore hinv hmem (not_adjacent_of_none hgc))
            hlastrest ?_ hex
          have hmul := Nat.mul_le_mul_right (degSum g + 1) (Nat.le_of_lt hdec)
          omega
        | some city =>
          by_cases hnil : city.neighbors.isEmpty
          · rw [bfsAux_step_empty hmem hgc hnil]
            apply ih rest _
              (bfsInv_dropExplore hinv hmem (not_adjacent_of_empty hgc hnil))
              hlastrest ?_ hex
            have hmul := Nat.mul_le_mul_right (degSum g + 1) (Nat.le_of_lt hdec)
            omega
          · cases hexp : expand g t p city.neighbors with
            | inl found => exact ⟨found, bfsAux_step_inl hmem hgc hnil hexp⟩
            | inr qs =>
              rw [bfsAux_step_inr hmem hgc hnil hexp]
              obtain ⟨hqs, _⟩ := expand_inr hexp
              apply ih (rest ++ qs) _ (bfsInv_expand hinv hmem hgc hexp) ?_ ?_ hex
              · intro p' hp'
                rcases List.mem_append.mp hp' with hp' | hp'
                · exact hlastrest p' hp'
                · rw [hqs] at hp'
                  obtain ⟨t₀, ht₀, rfl⟩ := List.mem_map.mp hp'
                  rw [getLastD_concat']
                  exact List.mem_cons_of_mem _
                    (resolved_mem_allNbrNames (get_city_some hgc).1 ht₀)
              · have hlen : qs.length ≤ degSum g := by
                  rw [hqs, List.length_map]
                  exact nbr_length_le_degSum (get_city_some hgc).1
                have hF : ((s :: allNbrNames g).filter
                    (fun x => decide (x ∉ e ++ [p.getLastD ""]))).length + 1 ≤
                    ((s :: allNbrNames g).filter (fun x => decide (x ∉ e))).length := hdec
                have h1 := Nat.mul_le_mul_right (degSum g + 1) hF
                have h2 : (((s :: allNbrNames g).filter
                    (fun x => decide (x ∉ e ++ [p.getLastD ""]))).length + 1) * (degSum g + 1) =
                    ((s :: allNbrNames g).filter
                    (fun x => decide (x ∉ e ++ [p.getLastD ""]))).length * (degSum g + 1) +
                    (degSum g + 1) := by
                  rw [Nat.add_mul, Nat.one_mul]
                rw [List.length_append]
                omega

/-! ### Every walk contains a duplicate-free walk between the same endpoints -/

theorem not_nodup_split {α : Type _} : ∀ (l : List α), ¬ l.Nodup →
    ∃ a l₁ l₂ l₃, l = l₁ ++ a :: l₂ ++ a :: l₃ := by
  intro l
  induction l with
  | nil => intro h; simp at h
  | cons x xs ih =>
    intro h
    by_cases hx : x ∈ xs
    · obtain ⟨s', t', rfl⟩ := List.append_of_mem hx
      exact ⟨x, [], s', t', by simp⟩
    · have hxs : ¬ xs.Nodup := fun hnd => h (List.nodup_cons.mpr ⟨hx, hnd⟩)
      obtain ⟨a, l₁, l₂, l₃, rfl⟩ := ih hxs
      exact ⟨a, x :: l₁, l₂, l₃, by simp⟩

theorem chain'_cut {R : String → String → Prop} {l₁ l₂ l₃ : List String} {a : String}
    (h : List.Chain' R (l₁ ++ a :: l₂ ++ a :: l₃)) :
    List.Chain' R (l₁ ++ a :: l₃) := by
  rw [List.chain'_append] at h
  obtain ⟨h1, h2, _⟩ := h
  rw [List.chain'_append] at h1
  obtain ⟨h11, _, h13⟩ := h1
  rw [List.chain'_append]
  refine ⟨h11, h2, ?_⟩
  intro x hx y hy
  have hy' : a = y := by simpa using hy
  subst hy'
  exact h13 x hx a rfl

theorem cut_head? (l₁ l₂ l₃ : List String) (a : String) :
    (l₁ ++ a :: l₂ ++ a :: l₃).head? = (l₁ ++ a :: l₃).head? := by
  cases l₁ with
  | nil => rfl
  | cons x xs => rfl

theorem cut_getLast? (l₁ l₂ l₃ : List String) (a : String) :
    (l₁ ++ a :: l₂ ++ a :: l₃).getLast? = (l₁ ++ a :: l₃).getLast? := by
  have h1 : l₁ ++ a :: l₂ ++ a :: l₃ = (l₁ ++ a :: l₂) ++ (a :: l₃) := by
    simp
  rw [h1, List.getLast?_append_of_ne_nil _ (by simp : (a :: l₃ : List String) ≠ []),
    List.getLast?_append_of_ne_nil _ (by simp : (a :: l₃ : List String) ≠ [])]

theorem walk_bypass_bounded {g : Map} {s t : String} :
    ∀ (n : Nat) (w : List String), w.length ≤ n → isWalkFrom g s t w →
      ∃ w', isWalkFrom g s t w' ∧ w'.Nodup ∧ w'.length ≤ w.length := by
  intro n
  induction n with
  | zero =>
    intro w hlen hw
    rw [Nat.le_zero, List.length_eq_zero] at hlen
    exact absurd hlen hw.1
  | succ n ih =>
    intro w hlen hw
    by_cases hnd : w.Nodup
    · exact ⟨w, hw, hnd, le_refl _⟩
    · obtain ⟨a, l₁, l₂, l₃, rfl⟩ := not_nodup_split w hnd
      have hw' : isWalkFrom g s t (l₁ ++ a :: l₃) := by
        refine ⟨by simp, ?_, ?_, chain'_cut hw.2.2.2⟩
        · rw [← cut_head? l₁ l₂ l₃ a]
          exact hw.2.1
        · rw [← cut_getLast? l₁ l₂ l₃ a]
          exact hw.2.2.1
      have hlt : (l₁ ++ a :: l₃).length < (l₁ ++ a :: l₂ ++ a :: l₃).length := by
        simp only [List.length_append, List.length_cons]
        omega
      obtain ⟨w'', hw'', hnd'', hlen''⟩ := ih (l₁ ++ a :: l₃) (by omega) hw'
      exact ⟨w'', hw'', hnd'', le_trans hlen'' (Nat.le_of_lt hlt)⟩

theorem walk_bypass {g : Map} {s t : String} {w : List String} (hw : isWalkFrom g s t w) :
    ∃ w', isWalkFrom g s t w' ∧ w'.Nodup ∧ w'.length ≤ w.length :=
  walk_bypass_bounded w.length w (le_refl _) hw

/-! ## Claim theorems -/

/-- Two-city fixture for concrete witnesses: one edge X—Y. -/
def mapXY : Map := buildMap [("X", [("Y", 10, "I-5")])]

/-- C3: if the start identifier has no corresponding node in the graph,
`bfs` returns the `None` signal (the embedding is total, so no exception can
occur: the first dequeued path's last node has no city, nothing is enqueued,
and the emptied queue yields `None`). -/
theorem bfs_absent_start (g : Map) (s t : String) (h : get_city g s = none) :
    bfs g s t = none := by
  unfold bfs
  have hf : bfsFuel g s = ((s :: allNbrNames g).length * (degSum g + 1)) + 2 := rfl
  rw [hf, bfsAux_start_absent g s t _ h]
  rfl

/-- Witness for C3: on the one-edge map, a query from the absent node "Z"
returns `none`. -/
theorem bfs_absent_start_witness : bfs mapXY "Z" "Y" = none :=
  bfs_absent_start mapXY "Z" "Y" (by decide)

/-- C4: a second declaration of an already-recorded unordered pair — in either
direction, with different distance/label — leaves the built store bitwise
unchanged (a no-op, not an overwrite), and the pair is recorded as exactly one
edge, seen from both endpoints, carrying the first-declared attributes. -/
theorem duplicate_edge_noop (rel : List (String × List (String × Int × String)))
    (A B : String) (d : Int) (l : String) (d' : Int) (l' : String)
    (h : edgeAttr (buildMap rel) A B = some (d, l)) :
    buildMap (rel ++ [(A, [(B, d', l')])]) = buildMap rel ∧
    buildMap (rel ++ [(B, [(A, d', l')])]) = buildMap rel ∧
    edgeVals (buildMap rel) A B = [(d, l)] ∧
    edgeVals (buildMap rel) B A = [(d, l)] := by
  have hinv := buildMap_storeInv rel
  obtain ⟨iA, iB, hiA, hiB, hnA, hnB, hmem⟩ := edge_indices h
  have hmemBA : (iA, d, l) ∈ ((buildMap rel).cities.getD iB defaultCity).neighbors :=
    hinv.1 iA hiA (iB, d, l) hmem
  have hkeyAB : hasKey ((buildMap rel).cities.getD iA defaultCity) iB = true :=
    hasKey_iff.mpr ⟨(d, l), hmem⟩
  have hkeyBA : hasKey ((buildMap rel).cities.getD iB defaultCity) iA = true :=
    hasKey_iff.mpr ⟨(d, l), hmemBA⟩
  refine ⟨?_, ?_, ?_, ?_⟩
  · show Map.mk ((rel ++ [(A, [(B, d', l')])]).foldl buildStep []) = buildMap rel
    rw [List.foldl_append, List.foldl_cons, List.foldl_nil]
    show Map.mk (buildStep (buildMap rel).cities (A, [(B, d', l')])) = buildMap rel
    rw [buildStep_dup_noop hinv hiA hiB hnA hnB hkeyAB d' l']
  · show Map.mk ((rel ++ [(B, [(A, d', l')])]).foldl buildStep []) = buildMap rel
    rw [List.foldl_append, List.foldl_cons, List.foldl_nil]
    show Map.mk (buildStep (buildMap rel).cities (B, [(A, d', l')])) = buildMap rel
    rw [buildStep_dup_noop hinv hiB hiA hnB hnA hkeyBA d' l']
  · exact edgeVals_eq_single hinv hiA hiB hnA hnB hmem
  · exact edgeVals_eq_single hinv hiB hiA hnB hnA hmemBA

/-- Witness for C4 at a concrete duplicate declaration. -/
theorem duplicate_edge_noop_witness :
    buildMap ([("A", [("B", 5, "I1")])] ++ [("A", [("B", 7, "I2")])]) =
      buildMap [("A", [("B", 5, "I1")])] ∧
    buildMap ([("A", [("B", 5, "I1")])] ++ [("B", [("A", 7, "I2")])]) =
      buildMap [("A", [("B", 5, "I1")])] ∧
    edgeVals (buildMap [("A", [("B", 5, "I1")])]) "A" "B" = [(5, "I1")] ∧
    edgeVals (buildMap [("A", [("B", 5, "I1")])]) "B" "A" = [(5, "I1")] :=
  duplicate_edge_noop [("A", [("B", 5, "I1")])] "A" "B" 5 "I1" 7 "I2" (by decide)

/-- C5: every recorded edge is visible from both endpoints with identical
distance and label (first conjunct, for any built map), and one
`add_neighbor` call on a store satisfying the build invariant preserves the
symmetry (second conjunct). -/
theorem edge_symmetry :
    (∀ (rel : List (String × List (String × Int × String))) (A B : String)
        (d : Int) (l : String) (c : City) (j : Nat),
      get_city (buildMap rel) A = some c → (j, d, l) ∈ c.neighbors →
      (cityAt (buildMap rel) j).name = B →
      ∃ c' j', get_city (buildMap rel) B = some c' ∧ (j', d, l) ∈ c'.neighbors ∧
        (cityAt (buildMap rel) j').name = A) ∧
    (∀ (cs : List City) (i j : Nat) (d : Int) (l : String),
      i < cs.length → j < cs.length → StoreInv cs →
      SymmStore (add_neighbor cs i j d l)) := by
  constructor
  · intro rel A B d l c j hgc hmem hres
    obtain ⟨hs, hn, hk, hv⟩ := buildMap_storeInv rel
    obtain ⟨hcmem, hcname⟩ := get_city_some hgc
    obtain ⟨iA, hiA, hcA⟩ := List.mem_iff_getElem.mp hcmem
    have hgA : (buildMap rel).cities.getD iA defaultCity = c := by
      rw [getD_eq_getElem hiA]; exact hcA
    have hj : j < (buildMap rel).cities.length := by
      apply hv c hcmem (j, d, l) hmem
    have hsym : (iA, d, l) ∈ ((buildMap rel).cities.getD j defaultCity).neighbors := by
      have := hs iA hiA (j, d, l) (by rw [hgA]; exact hmem)
      exact this
    obtain ⟨c', hgc'⟩ := get_city_isSome
      ⟨(buildMap rel).cities.getD j defaultCity, getD_mem hj _, hres⟩
    obtain ⟨hcmem', hcname'⟩ := get_city_some hgc'
    have hc'eq : c' = (buildMap rel).cities.getD j defaultCity :=
      member_name_unique hn hcmem' (getD_mem hj _) (by rw [hcname']; exact hres.symm)
    refine ⟨c', iA, hgc', by rw [hc'eq]; exact hsym, ?_⟩
    show ((buildMap rel).cities.getD iA defaultCity).name = A
    rw [hgA, hcname]
  · intro cs i j d l hi hj hinv
    exact (add_neighbor_storeInv hinv hi hj).1.1

/-- C6: every identifier that appears as a neighbor in some entry of the
relationship listing exists as a node of the built graph, even when it is
never a top-level key. -/
theorem implicit_node_creation (rel : List (String × List (String × Int × String)))
    (k : String) (ts : List (String × Int × String)) (nb : String) (d : Int) (l : String)
    (hk : (k, ts) ∈ rel) (ht : (nb, d, l) ∈ ts) :
    ∃ c ∈ (buildMap rel).cities, c.name = nb := by
  have := buildMap_neighbor_mem rel (k, ts) hk (nb, d, l) ht
  obtain ⟨c, hc, hcn⟩ := List.mem_map.mp this
  exact ⟨c, hc, hcn⟩

/-- Witness for C6: "Y" never appears as a key yet is a node of the built
map. -/
theorem implicit_node_creation_witness :
    ∃ c ∈ (buildMap [("X", [("Y", 10, "I-5")])]).cities, c.name = "Y" :=
  implicit_node_creation [("X", [("Y", 10, "I-5")])] "X" [("Y", 10, "I-5")] "Y" 10 "I-5"
    (by decide) (by decide)

/-- C7: `get_city` returns a member city whose name equals the query exactly
when one exists, and the explicit `none` signal precisely when no city bears
that name (never a partial match; the embedding is total, so it never
raises). -/
theorem lookup_exact (g : Map) (n : String) :
    (∀ c, get_city g n = some c → c ∈ g.cities ∧ c.name = n) ∧
    (get_city g n = none ↔ ∀ c ∈ g.cities, c.name ≠ n) :=
  ⟨fun _ h => get_city_some h, get_city_eq_none⟩

/-- C10: after a build no two cities share a name, so `get_city`'s
first-match scan is unambiguous. -/
theorem build_names_nodup (rel : List (String × List (String × Int × String))) :
    ((buildMap rel).cities.map City.name).Nodup :=
  (buildMap_storeInv rel).2.1

/-- C8: for every map and every query the search loop runs to completion
within the fuel `bfs` supplies — the result is a definite answer `r`, either
a path (`some`) or the NotFound signal (`none`) — and `bfs` returns exactly
that answer. -/
theorem bfs_terminates (g : Map) (s t : String) :
    ∃ r : Option (List String),
      bfsAux g t (bfsFuel g s) [[s]] [] = some r ∧ bfs g s t = r := by
  obtain ⟨r, hr⟩ := bfsAux_total g s t (bfsFuel g s) [[s]] []
    (by
      intro p hp
      have hps : p = [s] := by simpa using hp
      subst hps
      simp)
    (by
      intro p hp
      have hps : p = [s] := by simpa using hp
      subst hps
      simp [List.getLastD])
    (by
      have hfe : (s :: allNbrNames g).filter (fun x => decide (x ∉ ([] : List String)))
          = s :: allNbrNames g := by
        simp
      rw [hfe]
      unfold bfsFuel
      simp only [List.length_singleton]
      omega)
  exact ⟨r, hr, by unfold bfs; rw [hr]; rfl⟩

/-- C9: any path returned by `bfs` begins with the start identifier, ends
with the goal identifier, and every consecutive pair is joined by an edge
recorded in the graph (so the caller's per-pair edge lookup cannot fail on
it).  This holds for every query, including start = goal. -/
theorem bfs_path_wellformed (g : Map) (s t : String) (res : List String)
    (h : bfs g s t = some res) :
    res.head? = some s ∧ res.getLast? = some t ∧ List.Chain' (adjacent g) res := by
  unfold bfs at h
  cases haux : bfsAux g t (bfsFuel g s) [[s]] [] with
  | none => rw [haux] at h; simp at h
  | some r =>
    rw [haux] at h
    cases r with
    | none => simp at h
    | some res' =>
      have hrr : res' = res := by simpa using h
      subst hrr
      have hinit : QueueWalk g s [[s]] := by
        intro p hp
        have hps : p = [s] := by simpa using hp
        subst hps
        exact ⟨by simp, rfl, List.chain'_singleton _⟩
      obtain ⟨_, h1, h2, h3⟩ := bfsAux_sound g s t _ _ _ _ hinit haux
      exact ⟨h1, h2, h3⟩

/-- Witness for C9 on the one-edge map. -/
theorem bfs_path_wellformed_witness :
    (["X", "Y"] : List String).head? = some "X" ∧
    (["X", "Y"] : List String).getLast? = some "Y" ∧
    List.Chain' (adjacent mapXY) ["X", "Y"] :=
  bfs_path_wellformed mapXY "X" "Y" ["X", "Y"] (by decide)

/-- C2 (amended): for every query with start ≠ goal, any path `bfs` returns
contains no repeated node identifiers. -/
theorem bfs_path_nodup (g : Map) (s t : String) (hne : s ≠ t) (res : List String)
    (h : bfs g s t = some res) : res.Nodup := by
  unfold bfs at h
  cases haux : bfsAux g t (bfsFuel g s) [[s]] [] with
  | none => rw [haux] at h; simp at h
  | some r =>
    rw [haux] at h
    cases r with
    | none => simp at h
    | some res' =>
      have hrr : res' = res := by simpa using h
      subst hrr
      exact bfsAux_nodup g s t _ _ _ _ (bfsInv_init hne) haux

/-- Witness for C2 (amended) at a concrete query. -/
theorem bfs_path_nodup_witness : (["X", "Y"] : List String).Nodup :=
  bfs_path_nodup mapXY "X" "Y" (by decide) ["X", "Y"] (by decide)

/-- Counterexample to C2 as stated: on the one-edge map X—Y, the query with
start = goal = "X" returns [X, Y, X], which repeats "X" — the goal test only
fires on neighbors, so the seed path is never accepted and the search walks
out and back. -/
theorem bfs_selfquery_not_simple :
    bfs mapXY "X" "X" = some ["X", "Y", "X"] ∧
    ¬ (["X", "Y", "X"] : List String).Nodup := by
  exact ⟨by decide, by decide⟩

/-- C1 (amended): for start ≠ goal, whenever some walk joins start to goal
the search succeeds, the returned path is itself a walk from start to goal,
and its length — hence its edge count, length minus one — is minimal among
all connecting walks. -/
theorem bfs_minimal (g : Map) (s t : String) (hne : s ≠ t) (w₀ : List String)
    (hw₀ : isWalkFrom g s t w₀) :
    ∃ res, bfs g s t = some res ∧ isWalkFrom g s t res ∧
      ∀ w, isWalkFrom g s t w → res.length ≤ w.length := by
  obtain ⟨w₁, hw₁, hnd₁, _⟩ := walk_bypass hw₀
  obtain ⟨res, hres⟩ := bfsAux_complete g s t (bfsFuel g s) [[s]] [] (bfsInv_init hne)
    (by
      intro p hp
      have hps : p = [s] := by simpa using hp
      subst hps
      simp [List.getLastD])
    (by
      have hfe : (s :: allNbrNames g).filter (fun x => decide (x ∉ ([] : List String)))
          = s :: allNbrNames g := by
        simp
      rw [hfe]
      unfold bfsFuel
      simp only [List.length_singleton]
      omega)
    ⟨w₁, hw₁, hnd₁⟩
  have hinit : QueueWalk g s [[s]] := by
    intro p hp
    have hps : p = [s] := by simpa using hp
    subst hps
    exact ⟨by simp, rfl, List.chain'_singleton _⟩
  obtain ⟨h1, h2, h3, h4⟩ := bfsAux_sound g s t _ _ _ _ hinit hres
  refine ⟨res, by unfold bfs; rw [hres]; rfl, ⟨h1, h2, h3, h4⟩, ?_⟩
  intro w hw
  obtain ⟨w', hw', hnd', hlen'⟩ := walk_bypass hw
  exact le_trans (bfsAux_min g s t _ _ _ _ (bfsInv_init hne) hres w' hw' hnd') hlen'

/-- Witness for C1 (amended) at a concrete reachable query. -/
theorem bfs_minimal_witness :
    ∃ res, bfs mapXY "X" "Y" = some res ∧ isWalkFrom mapXY "X" "Y" res ∧
      ∀ w, isWalkFrom mapXY "X" "Y" w → res.length ≤ w.length :=
  bfs_minimal mapXY "X" "Y" (by decide) ["X", "Y"] (by decide)

/-- Counterexample to C1 as stated: with start = goal = "X" on the one-edge
map, "X" is a node and the single-node walk ["X"] (zero edges) joins start to
goal, yet `bfs` returns the two-edge path [X, Y, X] — not the minimum edge
count over all connecting paths. -/
theorem bfs_selfquery_not_minimal :
    (get_city mapXY "X").isSome = true ∧
    isWalkFrom mapXY "X" "X" ["X"] ∧
    bfs mapXY "X" "X" = some ["X", "Y", "X"] ∧
    (["X"] : List String).length < (["X", "Y", "X"] : List String).length := by
  exact ⟨by decide, by decide, by decide, by decide⟩

end GPS
